import Mathlib

/-!
Verification of the core of the `@effect/parser` bidirectional parser/printer
combinator library against its specification.

The repository ships only the public API declaration files (`Syntax.ts`,
`Printer.ts`, `Regex.ts`) together with their doc comments; the internal
implementation modules (`internal/regex.ts`, `internal/syntax.ts`,
`internal/printer.ts`, `internal/parser.ts`, `BitSet.ts`, `Target.ts`) are not
part of the sources.  Every definition below whose doc comment starts with
"Modelled from the spec:" is therefore a model of the missing internal module,
built faithfully from the specification's words (data model in spec section 3,
component design in section 4, external interfaces in section 6) and from the
doc comments of the public declaration files.

Conventions of the embedding:
- input strings are `List Char`; at the regex layer characters are their code
  units (`Nat`), matching the spec's BitSet over byte values;
- the untyped value domain `Val` stands for the TypeScript values flowing
  through parsers and printers (chunks are encoded with `nilV`/`consV`);
- machine integers need no wrap-around modelling: all indices are list
  positions.
-/

namespace EffectParser

/-- Untyped value domain for parser results and printer inputs.  Chunks are
encoded as `consV`/`nilV` chains; `Val.ofList` converts a Lean list. -/
inductive Val where
  | unitV
  | charV (c : Char)
  | strV (s : String)
  | numV (n : Nat)
  | boolV (b : Bool)
  | pairV (l r : Val)
  | leftV (v : Val)
  | rightV (v : Val)
  | noneV
  | someV (v : Val)
  | nilV
  | consV (hd tl : Val)
deriving DecidableEq, Repr

/-- Encode a Lean list of values as a chunk value. -/
def Val.ofList : List Val → Val
  | [] => Val.nilV
  | v :: vs => Val.consV v (Val.ofList vs)

/-- Modelled from the spec: the `ParserError` taxonomy of section 3.6 of the
specification (the module `ParserError.ts` is not among the sources).  Each
variant carries the input position where known; `failure` additionally carries
the accumulated chain of enclosing named scopes. -/
inductive ParserError where
  | failure (nameStack : List String) (position : Nat) (error : Val)
  | unexpectedEndOfInput
  | unknownFailure (nameStack : List String) (position : Nat)
  | notConsumedAll (position : Nat)
  | allBranchesFailed (left right : ParserError)
deriving DecidableEq, Repr

/-- Map the user-error payloads of a `ParserError` (the payload of `failure`,
on both sides of `allBranchesFailed`), leaving the structural variants as they
are. -/
def ParserError.mapErr (f : Val → Val) : ParserError → ParserError
  | .failure ns pos e => .failure ns pos (f e)
  | .allBranchesFailed l r => .allBranchesFailed (l.mapErr f) (r.mapErr f)
  | .unexpectedEndOfInput => .unexpectedEndOfInput
  | .unknownFailure ns pos => .unknownFailure ns pos
  | .notConsumedAll pos => .notConsumedAll pos

/-- Result of running a parser from some index: either the new index with the
produced value, or a `ParserError` together with the input position at the
moment of failure (the position an enclosing alternative compares with its
entry index to decide whether input was consumed). -/
inductive PRes where
  | ok (idx : Nat) (v : Val)
  | fail (e : ParserError) (pos : Nat)
deriving DecidableEq, Repr

/-! ## Regex layer

Modelled from the spec: the regex algebra of spec section 3.2 and its
table-driven matcher of section 4.2 (`internal/regex.ts` is not among the
sources; `Regex.ts` in `src` only declares the surface).  Bitsets are sets of
code units 0..255, here lists of code units; a test returns either the
non-negative next index, or one of the sentinels `notMatched = -1` and
`needMoreInput = -2` (spec section 3.1). -/

/-- Sentinel result: the input ended before the regex could decide. -/
def needMoreInput : Int := -2

/-- Sentinel result: the input does not match the regex. -/
def notMatched : Int := -1

/-- Modelled from the spec: the regex AST of spec section 3.2.  `Repeat`
carries optional bounds: `min` defaults to 0 and `max` to infinity when
absent. -/
inductive Regex where
  | Succeed
  | OneOf (bitset : List Nat)
  | And (left right : Regex)
  | Or (left right : Regex)
  | Sequence (left right : Regex)
  | Repeat (regex : Regex) (min max : Option Nat)
deriving DecidableEq, Repr

/-- Whether a repetition count has reached the optional upper bound. -/
def maxReached : Option Nat → Nat → Bool
  | none, _ => false
  | some m, n => m ≤ n

/-- Modelled from the spec: the greedy repetition loop of the compiled matcher
(spec section 4.2): repeatedly apply the inner test, counting matches; yield
`notMatched` (or the propagated sentinel) if the count stays below `min`,
otherwise consume as many prefixes as possible up to `max`.  Per the spec's
termination rule (section 4.4) an iteration continues only when it consumed at
least one character; the fuel argument realizes the input-length bound and is
never exhausted on well-formed calls. -/
def repLoopR (tst : Nat → Int) (mn : Nat) (mx : Option Nat) :
    Nat → Nat → Nat → Int
  | fuel, count, cur =>
    if maxReached mx count then (cur : Int)
    else
      match fuel with
      | 0 => if mn ≤ count then (cur : Int) else notMatched
      | fuel' + 1 =>
        let i := tst cur
        if i < 0 then (if mn ≤ count then (cur : Int) else i)
        else if cur < i.toNat then repLoopR tst mn mx fuel' (count + 1) i.toNat
        else (if mn ≤ count then (cur : Int) else notMatched)

/-- Modelled from the spec: the compiled matcher's `test` operation (spec
sections 3.2 and 4.2), interpreted directly over the AST — compilation is
deterministic and structurally equal ASTs compile to behaviourally
indistinguishable matchers, so the AST interpretation is the compiled
behaviour.  `OneOf` needs a character and reports `needMoreInput` at the end
of input; `And` runs both sides and requires equal consumed length,
propagating `needMoreInput`; `Or` runs both sides and picks the longer match
(ties go to the left side, whose index equals the right one's); `Sequence`
chains indices; `Repeat` is the greedy loop. -/
def Regex.test (s : List Nat) : Regex → Nat → Int
  | .Succeed, idx => (idx : Int)
  | .OneOf bs, idx =>
    if idx < s.length then
      (if s.getD idx 0 ∈ bs then ((idx + 1 : Nat) : Int) else notMatched)
    else needMoreInput
  | .And l r, idx =>
    let i := Regex.test s l idx
    let j := Regex.test s r idx
    if i = needMoreInput ∨ j = needMoreInput then needMoreInput
    else if i = j then i else notMatched
  | .Or l r, idx => max (Regex.test s l idx) (Regex.test s r idx)
  | .Sequence l r, idx =>
    let i := Regex.test s l idx
    if i < 0 then i else Regex.test s r i.toNat
  | .Repeat r mn mx, idx =>
    repLoopR (fun c => Regex.test s r c) (mn.getD 0) mx (s.length + 1 - idx) 0 idx

/-- Modelled from the spec: `matches` is defined as `test(0, s) = s.length`
(spec section 3.2). -/
def Regex.matchesAll (r : Regex) (s : List Nat) : Bool :=
  Regex.test s r 0 = (s.length : Int)

/-- Modelled from the spec: `toLiteral` succeeds iff the regex is a concrete
sequence of single-character `OneOf` nodes with singleton bitsets chained by
`Sequence`, and then returns the implied ordered sequence of code units (spec
section 3.2). -/
def Regex.toLiteral : Regex → Option (List Nat)
  | .OneOf [n] => some [n]
  | .Sequence l r =>
    match Regex.toLiteral l, Regex.toLiteral r with
    | some a, some b => some (a ++ b)
    | _, _ => none
  | _ => none

/-- Modelled from the spec: the exact digit character set `0..9` of spec
section 6. -/
def digitSet : List Nat := (List.range 10).map (fun i => 48 + i)

/-- Modelled from the spec: the exact letter character set `A..Z ∪ a..z` of
spec section 6. -/
def letterSet : List Nat :=
  (List.range 26).map (fun i => 65 + i) ++ (List.range 26).map (fun i => 97 + i)

/-- Modelled from the spec: the exact whitespace character set
`{space, tab, CR, LF, VT, FF}` of spec section 6. -/
def whitespaceSet : List Nat := [32, 9, 13, 10, 11, 12]

/-- Modelled from the spec: `alphaNumeric = letter ∪ digit` (spec section 6). -/
def alphaNumericSet : List Nat := letterSet ++ digitSet

/-- Modelled from the spec: the `anyDigit` regex constructor — a single
character from the digit set. -/
def Regex.anyDigit : Regex := .OneOf digitSet

/-- Modelled from the spec: the `anyLetter` regex constructor — a single
character from the letter set. -/
def Regex.anyLetter : Regex := .OneOf letterSet

/-- Modelled from the spec: the `anyWhitespace` regex constructor — a single
whitespace character. -/
def Regex.anyWhitespace : Regex := .OneOf whitespaceSet

/-- Modelled from the spec: the `anyAlphaNumeric` regex constructor — a single
letter or digit character. -/
def Regex.anyAlphaNumeric : Regex := .OneOf alphaNumericSet

/-- Modelled from the spec: the `anyChar` regex constructor — any single
character, i.e. `OneOf` of the whole BitSet domain 0..255 (spec section 4.1). -/
def Regex.anyCharR : Regex := .OneOf (List.range 256)

/-- Modelled from the spec: the `char` regex constructor — the single
character with the given code unit (`charIn` of a singleton). -/
def Regex.charR (c : Char) : Regex := .OneOf [c.toNat]

/-! ## Parser AST and the recursive reference engine

Modelled from the spec: the Parser AST of spec section 3.3 and the recursive
engine of section 4.3 (`internal/parser.ts` is not among the sources).  The
recursive engine is a pure function of the input and the current index,
threading the contextual name chain and the scoped auto-backtracking flag, and
returning either the new index with a value or a `ParserError` with the input
position at failure.  `SuspendLazy` can only wrap an already built grammar in
this total model (its thunk is forced and memoised in the implementation), so
it is an inert wrapper here. -/

/-- Distinguishes the three sequential-composition parsers, which differ only
in which side's value is kept. -/
inductive ZipKind where
  | both
  | left
  | right
deriving DecidableEq, Repr

/-- Distinguishes the value of the three regex-based parsers: the chunk of
parsed characters, the last parsed character, or no value. -/
inductive RegKind where
  | chunk
  | lastChar
  | discard
deriving DecidableEq, Repr

/-- Distinguishes `OrElse` (both branches produce the same value type) from
`OrElseEither` (branch results are wrapped in `leftV`/`rightV`). -/
inductive OrKind where
  | plain
  | either
deriving DecidableEq, Repr

/-- Result of the fallible mapping function of `TransformEither`. -/
inductive TRes where
  | okT (v : Val)
  | errT (e : Val)

/-- Modelled from the spec: the essential Parser AST node set of spec
section 3.3.  The three `Zip*` variants, the two `OrElse*` variants, and the
three regex variants are folded into one constructor each with a kind tag;
user-supplied functions are embedded as Lean functions. -/
inductive Parser where
  | Succeed (v : Val)
  | Fail (error : Val)
  | Named (inner : Parser) (name : String)
  | SuspendLazy (inner : Parser)
  | Backtrack (inner : Parser)
  | SetAutoBacktracking (inner : Parser) (enabled : Bool)
  | MapError (inner : Parser) (f : Val → Val)
  | TransformEither (inner : Parser) (f : Val → TRes)
  | Filter (inner : Parser) (pred : Val → Bool) (error : Val)
  | ZipWith (kind : ZipKind) (left right : Parser)
  | OrElse (kind : OrKind) (left right : Parser)
  | Optional (inner : Parser)
  | Repeat (inner : Parser) (min : Nat) (max : Option Nat)
  | RepeatUntil (inner stop : Parser)
  | RepeatWithSep (inner sep : Parser) (atLeastOne : Bool)
  | Not (inner : Parser) (error : Val)
  | End
  | Index
  | CaptureString (inner : Parser)
  | ParseRegex (kind : RegKind) (regex : Regex) (error : Option Val)
  | CharIn (bitset : List Nat) (error : Option Val)
  | CharNotIn (bitset : List Nat) (error : Option Val)
  | AnyChar

/-- The error reported when a character-class or regex parser does not match:
the user error when one was supplied, otherwise the internal
`unknownFailure` (the "unsafe" constructors have no error channel). -/
def errOrUnknown (oe : Option Val) (names : List String) (idx : Nat) : ParserError :=
  match oe with
  | some e => .failure names idx e
  | none => .unknownFailure names idx

/-- The code units of the input characters, as consumed by the regex layer. -/
def codeUnits (input : List Char) : List Nat := input.map Char.toNat

/-- Semantics of the `AnyChar` leaf: consume one character or report the end
of input. -/
def leafAnyChar (input : List Char) (idx : Nat) : PRes :=
  if idx < input.length then .ok (idx + 1) (.charV (input.getD idx ' '))
  else .fail .unexpectedEndOfInput idx

/-- Semantics of the `CharIn` leaf: consume one character from the set. -/
def leafCharIn (bs : List Nat) (oe : Option Val) (input : List Char) (idx : Nat)
    (names : List String) : PRes :=
  if idx < input.length then
    let c := input.getD idx ' '
    if c.toNat ∈ bs then .ok (idx + 1) (.charV c)
    else .fail (errOrUnknown oe names idx) idx
  else .fail .unexpectedEndOfInput idx

/-- Semantics of the `CharNotIn` leaf: consume one character not in the set. -/
def leafCharNotIn (bs : List Nat) (oe : Option Val) (input : List Char) (idx : Nat)
    (names : List String) : PRes :=
  if idx < input.length then
    let c := input.getD idx ' '
    if c.toNat ∈ bs then .fail (errOrUnknown oe names idx) idx
    else .ok (idx + 1) (.charV c)
  else .fail .unexpectedEndOfInput idx

/-- The value produced by a successful regex parser, per its kind. -/
def regVal (k : RegKind) (input : List Char) (idx stop : Nat) : Val :=
  match k with
  | .chunk => Val.ofList (((input.drop idx).take (stop - idx)).map Val.charV)
  | .lastChar => .charV (input.getD (stop - 1) ' ')
  | .discard => .unitV

/-- Semantics of the regex leaves: run the compiled regex from the current
index; a non-negative result is the new index, `notMatched` becomes the
supplied error and `needMoreInput` becomes `unexpectedEndOfInput`. -/
def leafRegex (k : RegKind) (r : Regex) (oe : Option Val) (input : List Char)
    (idx : Nat) (names : List String) : PRes :=
  let t := Regex.test (codeUnits input) r idx
  if 0 ≤ t then .ok t.toNat (regVal k input idx t.toNat)
  else if t = notMatched then .fail (errOrUnknown oe names idx) idx
  else .fail .unexpectedEndOfInput idx

/-- Semantics of the `End` leaf: succeed with unit iff the current index
equals the input length, otherwise fail with `notConsumedAll` carrying the
current index (spec section 4.3). -/
def leafEnd (input : List Char) (idx : Nat) : PRes :=
  if idx = input.length then .ok idx .unitV else .fail (.notConsumedAll idx) idx

/-- Combine the two values of a sequential composition per its kind. -/
def zipCombine (k : ZipKind) (a b : Val) : Val :=
  match k with
  | .both => .pairV a b
  | .left => a
  | .right => b

/-- Sequential composition: run the left side, continue the right side from
the new index, combine the values; the first failure propagates. -/
def zipSem (k : ZipKind) (resL : PRes) (contR : Nat → PRes) : PRes :=
  match resL with
  | .fail e pos => .fail e pos
  | .ok i v1 =>
    match contR i with
    | .fail e pos => .fail e pos
    | .ok j v2 => .ok j (zipCombine k v1 v2)

/-- Wrap the left branch's value per the alternative's kind. -/
def orWrapL (k : OrKind) (v : Val) : Val :=
  match k with
  | .plain => v
  | .either => .leftV v

/-- Wrap the right branch's value per the alternative's kind. -/
def orWrapR (k : OrKind) (v : Val) : Val :=
  match k with
  | .plain => v
  | .either => .rightV v

/-- Alternative composition (spec section 4.3): when the left branch fails
after consuming input, the right branch is attempted from the entry index
only if auto-backtracking is on; a failure that consumed nothing always
allows the alternative.  When both branches fail the errors are retained in
`allBranchesFailed`. -/
def orElseSem (k : OrKind) (resL : PRes) (contR : Unit → PRes) (idx0 : Nat)
    (ab : Bool) : PRes :=
  match resL with
  | .ok i v => .ok i (orWrapL k v)
  | .fail e1 pos =>
    if ab = true ∨ pos = idx0 then
      match contR () with
      | .ok i v => .ok i (orWrapR k v)
      | .fail e2 pos2 => .fail (.allBranchesFailed e1 e2) pos2
    else .fail e1 pos

/-- Optional composition: a failure is swallowed (yielding `noneV` at the
entry index) under the same backtracking condition as `orElseSem`. -/
def optionalSem (res : PRes) (idx0 : Nat) (ab : Bool) : PRes :=
  match res with
  | .ok i v => .ok i (.someV v)
  | .fail e pos => if ab = true ∨ pos = idx0 then .ok idx0 .noneV else .fail e pos

/-- Backtrack: a failure propagates with the position restored to the entry
index, so an enclosing alternative sees no consumption. -/
def backtrackSem (res : PRes) (idx0 : Nat) : PRes :=
  match res with
  | .ok i v => .ok i v
  | .fail e _ => .fail e idx0

/-- Map the user error of a failure. -/
def mapErrorSem (f : Val → Val) (res : PRes) : PRes :=
  match res with
  | .ok i v => .ok i v
  | .fail e pos => .fail (e.mapErr f) pos

/-- Map a successful value through a fallible function: a `Left` becomes a
`failure` recorded at the entry index (spec section 4.3). -/
def transformSem (f : Val → TRes) (idx0 : Nat) (names : List String)
    (res : PRes) : PRes :=
  match res with
  | .fail e pos => .fail e pos
  | .ok i v =>
    match f v with
    | .okT w => .ok i w
    | .errT e => .fail (.failure names idx0 e) i

/-- Filter a successful value: a rejected value fails with the given error,
recorded at the entry index (spec section 4.3). -/
def filterSem (pred : Val → Bool) (err : Val) (idx0 : Nat) (names : List String)
    (res : PRes) : PRes :=
  match res with
  | .fail e pos => .fail e pos
  | .ok i v => if pred v then .ok i v else .fail (.failure names idx0 err) i

/-- Negation: an inner success fails with the provided error at the entry
index; an inner failure succeeds with unit without consuming input. -/
def notSem (err : Val) (idx0 : Nat) (names : List String) (res : PRes) : PRes :=
  match res with
  | .ok _ _ => .fail (.failure names idx0 err) idx0
  | .fail _ _ => .ok idx0 .unitV

/-- Capture: run the inner parser for its consumption only and emit the
consumed substring. -/
def captureSem (input : List Char) (idx0 : Nat) (res : PRes) : PRes :=
  match res with
  | .ok i _ => .ok i (.strV (String.mk ((input.drop idx0).take (i - idx0))))
  | .fail e pos => .fail e pos

/-- Modelled from the spec: the greedy repetition loop of spec section 4.3.
Each successful consuming iteration establishes a new baseline; a failure on
iteration `k` is swallowed iff `k ≥ min` and the backtracking condition
holds, rewinding to the last baseline.  Per the spec's termination rule
(section 4.4) an iteration must consume to continue; the fuel realizes the
input-length bound and is not exhausted on well-formed calls. -/
def pRep (f : Nat → PRes) (mn : Nat) (mx : Option Nat) (ab : Bool) :
    Nat → Nat → List Val → PRes
  | fuel, cur, acc =>
    if maxReached mx acc.length then .ok cur (Val.ofList acc)
    else
      match fuel with
      | 0 => .fail (.unknownFailure [] cur) cur
      | fuel' + 1 =>
        match f cur with
        | .ok i v =>
          if cur < i then pRep f mn mx ab fuel' i (acc ++ [v])
          else .ok i (Val.ofList (acc ++ [v]))
        | .fail e pos =>
          if mn ≤ acc.length ∧ (ab = true ∨ pos = cur) then .ok cur (Val.ofList acc)
          else .fail e pos

/-- Modelled from the spec: the `RepeatUntil` loop of spec section 4.3.
After each successful inner match the stop parser is attempted with
backtracking; if it succeeds the loop ends consuming the stop's input, if it
fails the loop continues.  A non-consuming inner success with a failing stop
would loop forever and is an invariant violation. -/
def pRepUntil (f g : Nat → PRes) : Nat → Nat → List Val → PRes
  | 0, cur, _ => .fail (.unknownFailure [] cur) cur
  | fuel + 1, cur, acc =>
    match f cur with
    | .fail e pos => .fail e pos
    | .ok i v =>
      match g i with
      | .ok j _ => .ok j (Val.ofList (acc ++ [v]))
      | .fail _ _ =>
        if cur < i then pRepUntil f g fuel i (acc ++ [v])
        else .fail (.unknownFailure [] i) i

/-- Modelled from the spec: the trailing `(sep, inner)` loop of
`RepeatWithSep`.  `RepeatWithSep` is not among the auto-backtracking
alternatives of spec section 4.3, so the loop decides on consumption alone
(this is what the spec's scenario 5 exercises): a separator failure that
consumed nothing ends the loop with the collected elements; any failure that
consumed input propagates. -/
def pSepLoop (f g : Nat → PRes) : Nat → Nat → List Val → PRes
  | 0, cur, _ => .fail (.unknownFailure [] cur) cur
  | fuel + 1, cur, acc =>
    match g cur with
    | .fail es ps =>
      if ps = cur then .ok cur (Val.ofList acc) else .fail es ps
    | .ok j _ =>
      match f j with
      | .fail e pos =>
        if j = cur ∧ pos = j then .ok cur (Val.ofList acc)
        else .fail e pos
      | .ok k v =>
        if cur < k then pSepLoop f g fuel k (acc ++ [v])
        else .ok k (Val.ofList (acc ++ [v]))

/-- Modelled from the spec: `RepeatWithSep` first parses the inner parser,
then repeats `(sep, inner)` pairs; with `atLeastOne = false` an initial
failure with backtracking permitted yields the empty chunk (spec
section 4.3). -/
def pSep (f g : Nat → PRes) (atLeastOne : Bool) (ab : Bool) (fuel idx : Nat) : PRes :=
  match f idx with
  | .fail e pos =>
    if atLeastOne = false ∧ (ab = true ∨ pos = idx) then .ok idx (Val.ofList [])
    else .fail e pos
  | .ok i v =>
    if idx < i then pSepLoop f g fuel i [v] else .ok i (Val.ofList [v])

/-- Modelled from the spec: the recursive reference engine of spec
section 4.3 — the meaning of every Parser node as a pure function of the
input and the current index, threading the name chain and the scoped
auto-backtracking flag. -/
def parseRec (input : List Char) : Parser → Nat → List String → Bool → PRes
  | .Succeed v, idx, _, _ => .ok idx v
  | .Fail e, idx, names, _ => .fail (.failure names idx e) idx
  | .Named inner name, idx, names, ab => parseRec input inner idx (name :: names) ab
  | .SuspendLazy inner, idx, names, ab => parseRec input inner idx names ab
  | .Backtrack inner, idx, names, ab =>
    backtrackSem (parseRec input inner idx names ab) idx
  | .SetAutoBacktracking inner enabled, idx, names, _ =>
    parseRec input inner idx names enabled
  | .MapError inner f, idx, names, ab =>
    mapErrorSem f (parseRec input inner idx names ab)
  | .TransformEither inner f, idx, names, ab =>
    transformSem f idx names (parseRec input inner idx names ab)
  | .Filter inner pred e, idx, names, ab =>
    filterSem pred e idx names (parseRec input inner idx names ab)
  | .ZipWith k l r, idx, names, ab =>
    zipSem k (parseRec input l idx names ab) (fun i => parseRec input r i names ab)
  | .OrElse k l r, idx, names, ab =>
    orElseSem k (parseRec input l idx names ab)
      (fun _ => parseRec input r idx names ab) idx ab
  | .Optional inner, idx, names, ab =>
    optionalSem (parseRec input inner idx names ab) idx ab
  | .Repeat inner mn mx, idx, names, ab =>
    pRep (fun i => parseRec input inner i names ab) mn mx ab
      (input.length + 1 - idx) idx []
  | .RepeatUntil inner stop, idx, names, ab =>
    pRepUntil (fun i => parseRec input inner i names ab)
      (fun i => parseRec input stop i names ab) (input.length + 1 - idx) idx []
  | .RepeatWithSep inner sep atLeastOne, idx, names, ab =>
    pSep (fun i => parseRec input inner i names ab)
      (fun i => parseRec input sep i names ab) atLeastOne ab
      (input.length + 1 - idx) idx
  | .Not inner e, idx, names, ab =>
    notSem e idx names (parseRec input inner idx names ab)
  | .End, idx, _, _ => leafEnd input idx
  | .Index, idx, _, _ => .ok idx (.numV idx)
  | .CaptureString inner, idx, names, ab =>
    captureSem input idx (parseRec input inner idx names ab)
  | .ParseRegex k r oe, idx, names, _ => leafRegex k r oe input idx names
  | .CharIn bs oe, idx, names, _ => leafCharIn bs oe input idx names
  | .CharNotIn bs oe, idx, names, _ => leafCharNotIn bs oe input idx names
  | .AnyChar, idx, _, _ => leafAnyChar input idx

/-! ## The stack-safe engine

Modelled from the spec: the stack-safe virtual machine of spec section 4.4.
Host recursion is replaced by an explicit continuation stack of frames, one
frame per still-open combinator, describing what to do when its child
completes; execution is a trampoline reading either the next Parser node to
evaluate or the top frame fed with the most recent outcome.  Frames that may
retry record the index at which their scope was entered and the
auto-backtracking flag at that point; the name chain is part of the
evaluation context and is stored in every frame that resumes evaluation.
Loop frames additionally carry the input-length fuel realizing the spec's
termination bound (section 4.4, "greedy repetitions are bounded by input
length"). -/

/-- One continuation frame of the stack-safe engine. -/
inductive Frame where
  | zipL (kind : ZipKind) (right : Parser) (names : List String) (ab : Bool)
  | zipR (kind : ZipKind) (v1 : Val)
  | orElseL (kind : OrKind) (right : Parser) (idx0 : Nat) (names : List String) (ab : Bool)
  | orElseR (kind : OrKind) (e1 : ParserError)
  | optF (idx0 : Nat) (ab : Bool)
  | btrackF (idx0 : Nat)
  | mapErrF (f : Val → Val)
  | transfF (f : Val → TRes) (idx0 : Nat) (names : List String)
  | filtF (pred : Val → Bool) (error : Val) (idx0 : Nat) (names : List String)
  | notF (error : Val) (idx0 : Nat) (names : List String)
  | captureF (idx0 : Nat)
  | repF (body : Parser) (min : Nat) (max : Option Nat) (names : List String)
      (ab : Bool) (fuel cur : Nat) (acc : List Val)
  | untilB (body stop : Parser) (names : List String) (ab : Bool)
      (fuel cur : Nat) (acc : List Val)
  | untilS (body stop : Parser) (names : List String) (ab : Bool)
      (fuel cur i : Nat) (acc : List Val)
  | sepFirst (body sep : Parser) (atLeastOne : Bool) (names : List String)
      (ab : Bool) (fuel idx0 : Nat)
  | sepS (body sep : Parser) (names : List String) (ab : Bool)
      (fuel cur : Nat) (acc : List Val)
  | sepB (body sep : Parser) (names : List String) (ab : Bool)
      (fuel cur j : Nat) (acc : List Val)

/-- A state of the stack-safe trampoline: evaluate a parser node under a
continuation stack, feed an outcome to the top frame, or stop with the final
result. -/
inductive MState where
  | eval (p : Parser) (idx : Nat) (names : List String) (ab : Bool) (stack : List Frame)
  | apply (stack : List Frame) (res : PRes)
  | final (res : PRes)

/-- The entry point of one repetition iteration: stop when the upper bound is
reached or the fuel is exhausted, otherwise evaluate the body under a `repF`
frame. -/
def repDispatch (body : Parser) (mn : Nat) (mx : Option Nat) (names : List String)
    (ab : Bool) (fuel cur : Nat) (acc : List Val) (st : List Frame) : MState :=
  if maxReached mx acc.length then .apply st (.ok cur (Val.ofList acc))
  else
    match fuel with
    | 0 => .apply st (.fail (.unknownFailure [] cur) cur)
    | fuel' + 1 => .eval body cur names ab (.repF body mn mx names ab fuel' cur acc :: st)

/-- The entry point of one `RepeatUntil` iteration. -/
def untilDispatch (body stop : Parser) (names : List String) (ab : Bool)
    (fuel cur : Nat) (acc : List Val) (st : List Frame) : MState :=
  match fuel with
  | 0 => .apply st (.fail (.unknownFailure [] cur) cur)
  | fuel' + 1 => .eval body cur names ab (.untilB body stop names ab fuel' cur acc :: st)

/-- The entry point of one `(sep, inner)` iteration of `RepeatWithSep`. -/
def sepDispatch (body sep : Parser) (names : List String) (ab : Bool)
    (fuel cur : Nat) (acc : List Val) (st : List Frame) : MState :=
  match fuel with
  | 0 => .apply st (.fail (.unknownFailure [] cur) cur)
  | fuel' + 1 => .eval sep cur names ab (.sepS body sep names ab fuel' cur acc :: st)

/-- Feed an outcome to the top continuation frame (spec section 4.4: the
frame decides between unwinding transparently, restoring the index and
scheduling an alternative branch, or committing the failure). -/
def applyFrame (input : List Char) (fr : Frame) (res : PRes) (st : List Frame) : MState :=
  match fr with
  | .zipL k r names ab =>
    match res with
    | .fail e pos => .apply st (.fail e pos)
    | .ok i v1 => .eval r i names ab (.zipR k v1 :: st)
  | .zipR k v1 =>
    match res with
    | .fail e pos => .apply st (.fail e pos)
    | .ok j v2 => .apply st (.ok j (zipCombine k v1 v2))
  | .orElseL k r idx0 names ab =>
    match res with
    | .ok i v => .apply st (.ok i (orWrapL k v))
    | .fail e1 pos =>
      if ab = true ∨ pos = idx0 then .eval r idx0 names ab (.orElseR k e1 :: st)
      else .apply st (.fail e1 pos)
  | .orElseR k e1 =>
    match res with
    | .ok i v => .apply st (.ok i (orWrapR k v))
    | .fail e2 pos2 => .apply st (.fail (.allBranchesFailed e1 e2) pos2)
  | .optF idx0 ab => .apply st (optionalSem res idx0 ab)
  | .btrackF idx0 => .apply st (backtrackSem res idx0)
  | .mapErrF f => .apply st (mapErrorSem f res)
  | .transfF f idx0 names => .apply st (transformSem f idx0 names res)
  | .filtF pred e idx0 names => .apply st (filterSem pred e idx0 names res)
  | .notF e idx0 names => .apply st (notSem e idx0 names res)
  | .captureF idx0 => .apply st (captureSem input idx0 res)
  | .repF body mn mx names ab fuel cur acc =>
    match res with
    | .ok i v =>
      if cur < i then repDispatch body mn mx names ab fuel i (acc ++ [v]) st
      else .apply st (.ok i (Val.ofList (acc ++ [v])))
    | .fail e pos =>
      if mn ≤ acc.length ∧ (ab = true ∨ pos = cur) then .apply st (.ok cur (Val.ofList acc))
      else .apply st (.fail e pos)
  | .untilB body stop names ab fuel cur acc =>
    match res with
    | .fail e pos => .apply st (.fail e pos)
    | .ok i v => .eval stop i names ab (.untilS body stop names ab fuel cur i (acc ++ [v]) :: st)
  | .untilS body stop names ab fuel cur i acc =>
    match res with
    | .ok j _ => .apply st (.ok j (Val.ofList acc))
    | .fail _ _ =>
      if cur < i then untilDispatch body stop names ab fuel i acc st
      else .apply st (.fail (.unknownFailure [] i) i)
  | .sepFirst body sep al names ab fuel idx0 =>
    match res with
    | .fail e pos =>
      if al = false ∧ (ab = true ∨ pos = idx0) then .apply st (.ok idx0 (Val.ofList []))
      else .apply st (.fail e pos)
    | .ok i v =>
      if idx0 < i then sepDispatch body sep names ab fuel i [v] st
      else .apply st (.ok i (Val.ofList [v]))
  | .sepS body sep names ab fuel cur acc =>
    match res with
    | .fail es ps =>
      if ps = cur then .apply st (.ok cur (Val.ofList acc)) else .apply st (.fail es ps)
    | .ok j _ => .eval body j names ab (.sepB body sep names ab fuel cur j acc :: st)
  | .sepB body sep names ab fuel cur j acc =>
    match res with
    | .fail e pos =>
      if j = cur ∧ pos = j then .apply st (.ok cur (Val.ofList acc))
      else .apply st (.fail e pos)
    | .ok k v =>
      if cur < k then sepDispatch body sep names ab fuel k (acc ++ [v]) st
      else .apply st (.ok k (Val.ofList (acc ++ [v])))

/-- One step of the stack-safe trampoline.  Final states are absorbing. -/
def step (input : List Char) : MState → MState
  | .eval p idx names ab st =>
    match p with
    | .Succeed v => .apply st (.ok idx v)
    | .Fail e => .apply st (.fail (.failure names idx e) idx)
    | .Named inner name => .eval inner idx (name :: names) ab st
    | .SuspendLazy inner => .eval inner idx names ab st
    | .Backtrack inner => .eval inner idx names ab (.btrackF idx :: st)
    | .SetAutoBacktracking inner enabled => .eval inner idx names enabled st
    | .MapError inner f => .eval inner idx names ab (.mapErrF f :: st)
    | .TransformEither inner f => .eval inner idx names ab (.transfF f idx names :: st)
    | .Filter inner pred e => .eval inner idx names ab (.filtF pred e idx names :: st)
    | .ZipWith k l r => .eval l idx names ab (.zipL k r names ab :: st)
    | .OrElse k l r => .eval l idx names ab (.orElseL k r idx names ab :: st)
    | .Optional inner => .eval inner idx names ab (.optF idx ab :: st)
    | .Repeat inner mn mx =>
      repDispatch inner mn mx names ab (input.length + 1 - idx) idx [] st
    | .RepeatUntil inner stop =>
      untilDispatch inner stop names ab (input.length + 1 - idx) idx [] st
    | .RepeatWithSep inner sep al =>
      .eval inner idx names ab (.sepFirst inner sep al names ab (input.length + 1 - idx) idx :: st)
    | .Not inner e => .eval inner idx names ab (.notF e idx names :: st)
    | .End => .apply st (leafEnd input idx)
    | .Index => .apply st (.ok idx (.numV idx))
    | .CaptureString inner => .eval inner idx names ab (.captureF idx :: st)
    | .ParseRegex k r oe => .apply st (leafRegex k r oe input idx names)
    | .CharIn bs oe => .apply st (leafCharIn bs oe input idx names)
    | .CharNotIn bs oe => .apply st (leafCharNotIn bs oe input idx names)
    | .AnyChar => .apply st (leafAnyChar input idx)
  | .apply [] res => .final res
  | .apply (fr :: st) res => applyFrame input fr res st
  | .final res => .final res

/-- Iterate the trampoline a given number of steps. -/
def stepN (input : List Char) : Nat → MState → MState
  | 0, s => s
  | n + 1, s => stepN input n (step input s)

/-- Run the stack-safe engine with the given step budget: the result when the
trampoline has reached a final state within the budget. -/
def machineParse (fuel : Nat) (p : Parser) (input : List Char) : Option PRes :=
  match stepN input fuel (.eval p 0 [] true []) with
  | .final res => some res
  | _ => none

/-- The trampoline reaches state `t` from state `s` in some number of steps. -/
def Reaches (input : List Char) (s t : MState) : Prop :=
  ∃ n, stepN input n s = t

/-! ## Printer AST and printer engine

Modelled from the spec: the Printer AST of spec section 3.4 and the
tree-walking printer engine of section 4.5 (`internal/printer.ts` is not
among the sources; `Printer.ts` in `src` only declares the surface).  The
engine threads a Target sink; in this pure model the sink is the list of
written output values, `OrElse` discards the partial output of a failed left
branch (the Target's checkpoint/rollback), and a crash — an out-of-domain
input such as destructuring a non-pair, or taking the head of an empty chunk
— is the `crash` outcome, distinct from every `Either` result the library can
return. -/

/-- Printer nodes needed by the claims; the node names follow spec
section 3.4.  `ExactlyEqual`/`ExceptEqual` carry an optional user error; when
absent a default string error is used (doc of `exactly`/`except` in
`Printer.ts`). -/
inductive Printer where
  | SucceedUnit
  | FailP (error : Val)
  | Contramap (inner : Printer) (f : Val → Val)
  | ZipP (l r : Printer)
  | ZipLeftP (l r : Printer)
  | ZipRightP (l r : Printer)
  | OrElseP (l r : Printer)
  | OptionalP (inner : Printer)
  | RepeatP (inner : Printer)
  | RepeatWithSepP (inner sep : Printer)
  | ExactlyEqual (value : Val) (error : Option Val)
  | ExceptEqual (value : Val) (error : Option Val)
  | PrintRegexChar (regex : Regex) (error : Option Val)
  | PrintRegexDiscard (regex : Regex) (chars : List Char)

/-- Result of running a printer: the written output values, a user error, or
a crash (an exception escaping the engine, outside the `Either` result
domain). -/
inductive PrintRes where
  | ok (out : List Val)
  | fail (e : Val)
  | crash
deriving DecidableEq, Repr

/-- Sequential composition of printer outcomes: the left outcome's output
followed by the right one's; the leftmost failure or crash wins (the engine
runs the left printer first, spec section 4.5). -/
def PrintRes.append : PrintRes → PrintRes → PrintRes
  | .ok o1, .ok o2 => .ok (o1 ++ o2)
  | .ok _, .fail e => .fail e
  | .ok _, .crash => .crash
  | .fail e, _ => .fail e
  | .crash, _ => .crash

/-- Iterate a printer over an encoded chunk, concatenating the outputs; a
non-chunk value is out of domain. -/
def prunFold (pf : Val → PrintRes) : Val → PrintRes
  | .nilV => .ok []
  | .consV hd tl => (pf hd).append (prunFold pf tl)
  | _ => .crash

/-- Modelled from the spec: the default string error of `exactly` when no
error is supplied (doc of `exactly` in `Printer.ts`). -/
def defaultExactlyErr : Val := .strV "not matching the expected value"

/-- Modelled from the spec: the default string error of `except` when no
error is supplied (doc of `except` in `Printer.ts`). -/
def defaultExceptErr : Val := .strV "matching the excluded value"

/-- Modelled from the spec: the printer engine of spec section 4.5, a pure
function from the printer and the input value to the written output.
`ExactlyEqual` emits the input iff it equals the expected value — equality is
the structural `Equal.equals`, here decidable equality of `Val`;
`ExceptEqual` is its dual.  `PrintRegexChar` verifies the input character
against the regex and emits it; `PrintRegexDiscard` emits its fixed
characters ignoring the input.  `RepeatWithSepP` requires a non-empty chunk
(doc of `repeatWithSeparator` in `Printer.ts`: the input chunk may not be
empty); the empty chunk crashes taking the head of an empty chunk, it is not
printed as nothing. -/
def prun : Printer → Val → PrintRes
  | .SucceedUnit, _ => .ok []
  | .FailP e, _ => .fail e
  | .Contramap p f, v => prun p (f v)
  | .ZipP l r, v =>
    match v with
    | .pairV a b => (prun l a).append (prun r b)
    | _ => .crash
  | .ZipLeftP l r, v => (prun l v).append (prun r .unitV)
  | .ZipRightP l r, v => (prun l .unitV).append (prun r v)
  | .OrElseP l r, v =>
    match prun l v with
    | .fail _ => prun r v
    | out => out
  | .OptionalP p, v =>
    match v with
    | .noneV => .ok []
    | .someV w => prun p w
    | _ => .crash
  | .RepeatP p, v => prunFold (fun w => prun p w) v
  | .RepeatWithSepP p sep, v =>
    match v with
    | .nilV => .crash
    | .consV hd tl =>
      (prun p hd).append (prunFold (fun w => (prun sep .unitV).append (prun p w)) tl)
    | _ => .crash
  | .ExactlyEqual value oe, v =>
    if v = value then .ok [v] else .fail (oe.getD defaultExactlyErr)
  | .ExceptEqual value oe, v =>
    if v = value then .fail (oe.getD defaultExceptErr) else .ok [v]
  | .PrintRegexChar r oe, v =>
    match v with
    | .charV c =>
      if Regex.test [c.toNat] r 0 = 1 then .ok [.charV c]
      else
        match oe with
        | some e => .fail e
        | none => .crash
    | _ => .crash
  | .PrintRegexDiscard _ chars, _ => .ok (chars.map Val.charV)

/-- The printer `exactly`: emit the input iff it equals `value` (structural
equality), otherwise fail with the given error or the default string error. -/
def exactly (value : Val) (error : Option Val) : Printer := .ExactlyEqual value error

/-- The printer `except`: emit the input unless it equals `value`, in which
case fail with the given error or the default string error. -/
def exceptP (value : Val) (error : Option Val) : Printer := .ExceptEqual value error

/-! ## Syntax layer

Modelled from the spec: a Syntax pairs a Parser with a Printer (spec
section 3.5); each combinator builds both halves consistently, following the
doc comments of `Syntax.ts`. -/

/-- A Syntax owns the parser half and the printer half. -/
structure Syntax where
  parserOf : Parser
  printerOf : Printer

/-- The parse outcome exposed by `parseString`: the value, or the
`ParserError` (the internal index is dropped). -/
inductive ParseOut where
  | ok (v : Val)
  | fail (e : ParserError)
deriving DecidableEq, Repr

/-- The print outcome exposed by `printString`: the printed string, a user
error, or a crash (an exception; not an `Either` result). -/
inductive StrRes where
  | ok (s : String)
  | fail (e : Val)
  | crash
deriving DecidableEq, Repr

/-- Flatten printed output values to characters (`printString` collects into
a string Target; the printers used through `Syntax` emit characters). -/
def valChars : List Val → List Char
  | [] => []
  | .charV c :: rest => c :: valChars rest
  | .strV s :: rest => s.data ++ valChars rest
  | _ :: rest => valChars rest

/-- Run a Syntax's parser on a string with the recursive reference engine
(empty name chain, auto-backtracking initially enabled — backtracking points
are inserted by default, doc of `backtrack` in `Syntax.ts`). -/
def parseString (S : Syntax) (x : String) : ParseOut :=
  match parseRec x.data S.parserOf 0 [] true with
  | .ok _ v => .ok v
  | .fail e _ => .fail e

/-- Run a Syntax's parser on a string with the stack-safe engine under a step
budget. -/
def parseStringStackSafe (S : Syntax) (x : String) (fuel : Nat) : Option ParseOut :=
  match machineParse fuel S.parserOf x.data with
  | some (.ok _ v) => some (.ok v)
  | some (.fail e _) => some (.fail e)
  | none => none

/-- Print a value through a Syntax's printer into a string Target. -/
def printString (S : Syntax) (v : Val) : StrRes :=
  match prun S.printerOf v with
  | .ok out => .ok (String.mk (valChars out))
  | .fail e => .fail e
  | .crash => .crash

/-- The Syntax `anyChar`: parses/prints a single character. -/
def anyCharS : Syntax :=
  ⟨.AnyChar, .PrintRegexChar Regex.anyCharR none⟩

/-- The Syntax `charIn`: a single character from the set, failing with a
string error otherwise. -/
def charInS (bs : List Nat) : Syntax :=
  ⟨.CharIn bs (some (.strV "not one of the expected characters")),
   .PrintRegexChar (.OneOf bs) (some (.strV "not one of the expected characters"))⟩

/-- The Syntax `char c`: parse or print the given character, with value
unit. -/
def charS (c : Char) : Syntax :=
  ⟨.ParseRegex .discard (Regex.charR c) (some (.strV "not the expected character")),
   .PrintRegexDiscard (Regex.charR c) [c]⟩

/-- The Syntax `digit` (`regexChar` over the digit class). -/
def digitS : Syntax :=
  ⟨.ParseRegex .lastChar Regex.anyDigit (some (.strV "not a digit")),
   .PrintRegexChar Regex.anyDigit (some (.strV "not a digit"))⟩

/-- The Syntax `letter` (`regexChar` over the letter class). -/
def letterS : Syntax :=
  ⟨.ParseRegex .lastChar Regex.anyLetter (some (.strV "not a letter")),
   .PrintRegexChar Regex.anyLetter (some (.strV "not a letter"))⟩

/-- The Syntax `alphaNumeric` (`regexChar` over the letter-or-digit class). -/
def alphaNumericS : Syntax :=
  ⟨.ParseRegex .lastChar Regex.anyAlphaNumeric (some (.strV "not alphanumeric")),
   .PrintRegexChar Regex.anyAlphaNumeric (some (.strV "not alphanumeric"))⟩

/-- The Syntax `whitespace`: a single whitespace character (`regexChar` over
the whitespace class). -/
def whitespaceS : Syntax :=
  ⟨.ParseRegex .lastChar Regex.anyWhitespace (some (.strV "not a whitespace")),
   .PrintRegexChar Regex.anyWhitespace (some (.strV "not a whitespace"))⟩

/-- The Syntax combinator `zip`: both in sequence, value is the pair. -/
def zipS (A B : Syntax) : Syntax :=
  ⟨.ZipWith .both A.parserOf B.parserOf, .ZipP A.printerOf B.printerOf⟩

/-- The Syntax combinator `zipLeft`: both in sequence, value of the left; the
printer prints the value with the left half and unit with the right half. -/
def zipLeftS (A B : Syntax) : Syntax :=
  ⟨.ZipWith .left A.parserOf B.parserOf, .ZipLeftP A.printerOf B.printerOf⟩

/-- The Syntax combinator `orElse`: try the left, fall back to the right. -/
def orElseS (A B : Syntax) : Syntax :=
  ⟨.OrElse .plain A.parserOf B.parserOf, .OrElseP A.printerOf B.printerOf⟩

/-- The Syntax combinator `transform`: map the parsed value with `to`, map
the value to be printed with `from` (doc of `transform` in `Syntax.ts`). -/
def transformS (A : Syntax) (toF fr : Val → Val) : Syntax :=
  ⟨.TransformEither A.parserOf (fun v => .okT (toF v)), .Contramap A.printerOf fr⟩

/-- The Syntax `end`: parser-only; succeeds iff the input is fully consumed,
prints nothing. -/
def endS : Syntax := ⟨.End, .SucceedUnit⟩

/-- The Syntax combinator `backtrack`: resets the parsing position when the
parser fails; does not affect printing (doc of `backtrack` in `Syntax.ts`). -/
def backtrackS (A : Syntax) : Syntax := ⟨.Backtrack A.parserOf, A.printerOf⟩

/-- The Syntax combinator `setAutoBacktracking`: enables or disables
auto-backtracking for the parser half; the printer half is unchanged. -/
def setAutoBacktrackingS (A : Syntax) (enabled : Bool) : Syntax :=
  ⟨.SetAutoBacktracking A.parserOf enabled, A.printerOf⟩

/-! ## The invertible fragment for the round-trip law

The unrestricted round-trip law fails (a `transform` whose `from` is not a
section of `to` rewrites the value, see the counterexample below).  The
fragment here — character classes, fixed characters, zips, and transforms
whose two functions are mutually inverse — supports the law. -/

/-- Value types of the invertible fragment. -/
inductive Ty where
  | unitT
  | charT
  | pairT (a b : Ty)

/-- Typing of values. -/
def HasTy : Val → Ty → Prop
  | v, .unitT => v = .unitV
  | v, .charT => ∃ c, v = .charV c
  | v, .pairT a b => ∃ x y, v = .pairV x y ∧ HasTy x a ∧ HasTy y b

/-- Builders of the invertible fragment. -/
inductive SynB where
  | charInB (bs : List Nat)
  | charB (c : Char)
  | zipB (l r : SynB)
  | zipLeftB (l : SynB) (c : Char)
  | transformB (l : SynB) (toF fr : Val → Val) (τ : Ty)

/-- The value type of a fragment builder. -/
def SynB.ty : SynB → Ty
  | .charInB _ => .charT
  | .charB _ => .unitT
  | .zipB l r => .pairT l.ty r.ty
  | .zipLeftB l _ => l.ty
  | .transformB _ _ _ τ => τ

/-- The Syntax a fragment builder denotes. -/
def SynB.toSyntax : SynB → Syntax
  | .charInB bs => charInS bs
  | .charB c => charS c
  | .zipB l r => zipS l.toSyntax r.toSyntax
  | .zipLeftB l c => zipLeftS l.toSyntax (charS c)
  | .transformB l toF fr _ => transformS l.toSyntax toF fr

/-- Well-formedness of a fragment builder: every `transform` node maps typed
values to typed values in both directions and its two functions are mutually
inverse on typed values. -/
inductive Good : SynB → Prop
  | charInB (bs : List Nat) : Good (.charInB bs)
  | charB (c : Char) : Good (.charB c)
  | zipB {l r : SynB} : Good l → Good r → Good (.zipB l r)
  | zipLeftB {l : SynB} (c : Char) : Good l → Good (.zipLeftB l c)
  | transformB {l : SynB} {toF fr : Val → Val} {τ : Ty} :
      Good l →
      (∀ v, HasTy v l.ty → HasTy (toF v) τ) →
      (∀ w, HasTy w τ → HasTy (fr w) l.ty) →
      (∀ w, HasTy w τ → toF (fr w) = w) →
      Good (.transformB l toF fr τ)

/-- Whether a parser error is (at top level) a `notConsumedAll`. -/
def isNCA : ParserError → Bool
  | .notConsumedAll _ => true
  | _ => false

/-- The counterexample Syntax of the round-trip claim: a `transform` over
`anyChar` whose print-side function is not a section of its parse-side
function (`to` the identity, `from` constantly `b`). -/
def roundtripCex : Syntax := transformS anyCharS (fun v => v) (fun _ => Val.charV 'b')

/-! ## Theorems -/


theorem stepN_add (input : List Char) (a b : Nat) (s : MState) :
    stepN input (a + b) s = stepN input b (stepN input a s) := by
  induction a generalizing s with
  | zero => rw [Nat.zero_add]; rfl
  | succ a ih =>
    rw [show a + 1 + b = (a + b) + 1 from by omega]
    show stepN input (a + b) (step input s) = stepN input b (stepN input (a + 1) s)
    rw [ih (step input s)]
    rfl

theorem reaches_refl (input : List Char) (s : MState) : Reaches input s s := ⟨0, rfl⟩

theorem reaches_trans {input : List Char} {s t u : MState}
    (h1 : Reaches input s t) (h2 : Reaches input t u) : Reaches input s u := by
  obtain ⟨a, ha⟩ := h1
  obtain ⟨b, hb⟩ := h2
  exact ⟨a + b, by rw [stepN_add, ha, hb]⟩

theorem reaches_one {input : List Char} {s t : MState} (h : step input s = t) :
    Reaches input s t := ⟨1, h⟩

theorem machine_sim (input : List Char) (p : Parser) :
    ∀ idx names ab st, Reaches input (.eval p idx names ab st)
      (.apply st (parseRec input p idx names ab)) := by
  induction p with
  | Succeed v => intro idx names ab st; exact reaches_one rfl
  | Fail e => intro idx names ab st; exact reaches_one rfl
  | Named inner name ih =>
    intro idx names ab st
    exact reaches_trans (reaches_one rfl) (ih idx (name :: names) ab st)
  | SuspendLazy inner ih =>
    intro idx names ab st
    exact reaches_trans (reaches_one rfl) (ih idx names ab st)
  | Backtrack inner ih =>
    intro idx names ab st
    exact reaches_trans (reaches_one rfl)
      (reaches_trans (ih idx names ab (.btrackF idx :: st)) (reaches_one rfl))
  | SetAutoBacktracking inner enabled ih =>
    intro idx names ab st
    exact reaches_trans (reaches_one rfl) (ih idx names enabled st)
  | MapError inner f ih =>
    intro idx names ab st
    exact reaches_trans (reaches_one rfl)
      (reaches_trans (ih idx names ab (.mapErrF f :: st)) (reaches_one rfl))
  | TransformEither inner f ih =>
    intro idx names ab st
    exact reaches_trans (reaches_one rfl)
      (reaches_trans (ih idx names ab (.transfF f idx names :: st)) (reaches_one rfl))
  | Filter inner pred e ih =>
    intro idx names ab st
    exact reaches_trans (reaches_one rfl)
      (reaches_trans (ih idx names ab (.filtF pred e idx names :: st)) (reaches_one rfl))
  | Optional inner ih =>
    intro idx names ab st
    exact reaches_trans (reaches_one rfl)
      (reaches_trans (ih idx names ab (.optF idx ab :: st)) (reaches_one rfl))
  | Not inner e ih =>
    intro idx names ab st
    exact reaches_trans (reaches_one rfl)
      (reaches_trans (ih idx names ab (.notF e idx names :: st)) (reaches_one rfl))
  | CaptureString inner ih =>
    intro idx names ab st
    exact reaches_trans (reaches_one rfl)
      (reaches_trans (ih idx names ab (.captureF idx :: st)) (reaches_one rfl))
  | End => intro idx names ab st; exact reaches_one rfl
  | Index => intro idx names ab st; exact reaches_one rfl
  | ParseRegex k r oe => intro idx names ab st; exact reaches_one rfl
  | CharIn bs oe => intro idx names ab st; exact reaches_one rfl
  | CharNotIn bs oe => intro idx names ab st; exact reaches_one rfl
  | AnyChar => intro idx names ab st; exact reaches_one rfl
  | ZipWith k l r ihl ihr =>
    intro idx names ab st
    refine reaches_trans (reaches_one rfl) ?_
    refine reaches_trans (ihl idx names ab (.zipL k r names ab :: st)) ?_
    show Reaches input (.apply (.zipL k r names ab :: st) (parseRec input l idx names ab))
      (.apply st (zipSem k (parseRec input l idx names ab)
        (fun i => parseRec input r i names ab)))
    cases hL : parseRec input l idx names ab with
    | fail e pos => exact reaches_one rfl
    | ok i v1 =>
      refine reaches_trans (reaches_one rfl) ?_
      refine reaches_trans (ihr i names ab (.zipR k v1 :: st)) ?_
      show Reaches input (.apply (.zipR k v1 :: st) (parseRec input r i names ab))
        (.apply st (match parseRec input r i names ab with
          | .fail e pos => .fail e pos
          | .ok j v2 => .ok j (zipCombine k v1 v2)))
      cases hR : parseRec input r i names ab with
      | fail e pos => exact reaches_one rfl
      | ok j v2 => exact reaches_one rfl
  | OrElse k l r ihl ihr =>
    intro idx names ab st
    refine reaches_trans (reaches_one rfl) ?_
    refine reaches_trans (ihl idx names ab (.orElseL k r idx names ab :: st)) ?_
    show Reaches input (.apply (.orElseL k r idx names ab :: st) (parseRec input l idx names ab))
      (.apply st (orElseSem k (parseRec input l idx names ab)
        (fun _ => parseRec input r idx names ab) idx ab))
    cases hL : parseRec input l idx names ab with
    | ok i v => exact reaches_one rfl
    | fail e1 pos =>
      by_cases hc : ab = true ∨ pos = idx
      · have hstep : step input (.apply (.orElseL k r idx names ab :: st) (.fail e1 pos))
            = .eval r idx names ab (.orElseR k e1 :: st) := by
          simp only [step, applyFrame]
          rw [if_pos hc]
        refine reaches_trans (reaches_one hstep) ?_
        refine reaches_trans (ihr idx names ab (.orElseR k e1 :: st)) ?_
        have hsem : orElseSem k (.fail e1 pos) (fun _ => parseRec input r idx names ab) idx ab
            = match parseRec input r idx names ab with
              | .ok i v => .ok i (orWrapR k v)
              | .fail e2 pos2 => .fail (.allBranchesFailed e1 e2) pos2 := by
          simp only [orElseSem]
          rw [if_pos hc]
        rw [hsem]
        cases hR : parseRec input r idx names ab with
        | ok i v => exact reaches_one rfl
        | fail e2 pos2 => exact reaches_one rfl
      · refine reaches_one ?_
        show step input (.apply (.orElseL k r idx names ab :: st) (.fail e1 pos))
          = .apply st (orElseSem k (.fail e1 pos) (fun _ => parseRec input r idx names ab) idx ab)
        simp only [step, applyFrame, orElseSem]
        rw [if_neg hc, if_neg hc]
  | Repeat inner mn mx ih =>
    intro idx names ab st
    have aux : ∀ fuel cur acc stk,
        Reaches input (repDispatch inner mn mx names ab fuel cur acc stk)
          (.apply stk (pRep (fun i => parseRec input inner i names ab) mn mx ab fuel cur acc)) := by
      intro fuel
      induction fuel with
      | zero =>
        intro cur acc stk
        by_cases hm : maxReached mx acc.length = true
        · simp only [repDispatch, pRep, if_pos hm]
          exact reaches_refl input _
        · simp only [repDispatch, pRep, if_neg hm]
          exact reaches_refl input _
      | succ fuel' ihf =>
        intro cur acc stk
        by_cases hm : maxReached mx acc.length = true
        · simp only [repDispatch, pRep, if_pos hm]
          exact reaches_refl input _
        · have h1 : repDispatch inner mn mx names ab (fuel' + 1) cur acc stk
              = .eval inner cur names ab (.repF inner mn mx names ab fuel' cur acc :: stk) := by
            simp only [repDispatch, if_neg hm]
          rw [h1]
          refine reaches_trans (ih cur names ab _) ?_
          cases hres : parseRec input inner cur names ab with
          | ok i v =>
            by_cases hlt : cur < i
            · have h2 : pRep (fun i => parseRec input inner i names ab) mn mx ab (fuel' + 1) cur acc
                  = pRep (fun i => parseRec input inner i names ab) mn mx ab fuel' i (acc ++ [v]) := by
                simp only [pRep, if_neg hm]
                rw [hres]
                simp [hlt]
              rw [h2]
              have hstep : step input (.apply (.repF inner mn mx names ab fuel' cur acc :: stk) (.ok i v))
                  = repDispatch inner mn mx names ab fuel' i (acc ++ [v]) stk := by
                simp only [step, applyFrame]
                rw [if_pos hlt]
              exact reaches_trans (reaches_one hstep) (ihf i (acc ++ [v]) stk)
            · have h2 : pRep (fun i => parseRec input inner i names ab) mn mx ab (fuel' + 1) cur acc
                  = .ok i (Val.ofList (acc ++ [v])) := by
                simp only [pRep, if_neg hm]
                rw [hres]
                simp [hlt]
              rw [h2]
              refine reaches_one ?_
              simp only [step, applyFrame]
              rw [if_neg hlt]
          | fail e pos =>
            by_cases hsw : mn ≤ acc.length ∧ (ab = true ∨ pos = cur)
            · have h2 : pRep (fun i => parseRec input inner i names ab) mn mx ab (fuel' + 1) cur acc
                  = .ok cur (Val.ofList acc) := by
                simp only [pRep, if_neg hm]
                rw [hres]
                simp only [if_pos hsw]
              rw [h2]
              refine reaches_one ?_
              simp only [step, applyFrame]
              rw [if_pos hsw]
            · have h2 : pRep (fun i => parseRec input inner i names ab) mn mx ab (fuel' + 1) cur acc
                  = .fail e pos := by
                simp only [pRep, if_neg hm]
                rw [hres]
                simp only [if_neg hsw]
              rw [h2]
              refine reaches_one ?_
              simp only [step, applyFrame]
              rw [if_neg hsw]
    exact reaches_trans (reaches_one rfl) (aux (input.length + 1 - idx) idx [] st)
  | RepeatUntil inner stop ih1 ih2 =>
    intro idx names ab st
    have aux : ∀ fuel cur acc stk,
        Reaches input (untilDispatch inner stop names ab fuel cur acc stk)
          (.apply stk (pRepUntil (fun i => parseRec input inner i names ab)
            (fun i => parseRec input stop i names ab) fuel cur acc)) := by
      intro fuel
      induction fuel with
      | zero =>
        intro cur acc stk
        simp only [untilDispatch, pRepUntil]
        exact reaches_refl input _
      | succ fuel' ihf =>
        intro cur acc stk
        have h1 : untilDispatch inner stop names ab (fuel' + 1) cur acc stk
            = .eval inner cur names ab (.untilB inner stop names ab fuel' cur acc :: stk) := by
          simp only [untilDispatch]
        rw [h1]
        refine reaches_trans (ih1 cur names ab _) ?_
        cases hres : parseRec input inner cur names ab with
        | fail e pos =>
          have h2 : pRepUntil (fun i => parseRec input inner i names ab)
              (fun i => parseRec input stop i names ab) (fuel' + 1) cur acc = .fail e pos := by
            simp only [pRepUntil]
            rw [hres]
          rw [h2]
          exact reaches_one rfl
        | ok i v =>
          refine reaches_trans (reaches_one rfl) ?_
          refine reaches_trans
            (ih2 i names ab (.untilS inner stop names ab fuel' cur i (acc ++ [v]) :: stk)) ?_
          cases hstop : parseRec input stop i names ab with
          | ok j w =>
            have h2 : pRepUntil (fun i => parseRec input inner i names ab)
                (fun i => parseRec input stop i names ab) (fuel' + 1) cur acc
                = .ok j (Val.ofList (acc ++ [v])) := by
              simp only [pRepUntil]
              rw [hres]
              simp only [hstop]
            rw [h2]
            exact reaches_one rfl
          | fail es ps =>
            by_cases hlt : cur < i
            · have h2 : pRepUntil (fun i => parseRec input inner i names ab)
                  (fun i => parseRec input stop i names ab) (fuel' + 1) cur acc
                  = pRepUntil (fun i => parseRec input inner i names ab)
                    (fun i => parseRec input stop i names ab) fuel' i (acc ++ [v]) := by
                simp only [pRepUntil]
                rw [hres]
                simp only [hstop]
                simp [hlt]
              rw [h2]
              have hstep : step input
                  (.apply (.untilS inner stop names ab fuel' cur i (acc ++ [v]) :: stk) (.fail es ps))
                  = untilDispatch inner stop names ab fuel' i (acc ++ [v]) stk := by
                simp only [step, applyFrame]
                rw [if_pos hlt]
              exact reaches_trans (reaches_one hstep) (ihf i (acc ++ [v]) stk)
            · have h2 : pRepUntil (fun i => parseRec input inner i names ab)
                  (fun i => parseRec input stop i names ab) (fuel' + 1) cur acc
                  = .fail (.unknownFailure [] i) i := by
                simp only [pRepUntil]
                rw [hres]
                simp only [hstop]
                simp [hlt]
              rw [h2]
              refine reaches_one ?_
              simp only [step, applyFrame]
              rw [if_neg hlt]
    exact reaches_trans (reaches_one rfl) (aux (input.length + 1 - idx) idx [] st)
  | RepeatWithSep inner sep al ih1 ih2 =>
    intro idx names ab st
    have aux : ∀ fuel cur acc stk,
        Reaches input (sepDispatch inner sep names ab fuel cur acc stk)
          (.apply stk (pSepLoop (fun i => parseRec input inner i names ab)
            (fun i => parseRec input sep i names ab) fuel cur acc)) := by
      intro fuel
      induction fuel with
      | zero =>
        intro cur acc stk
        simp only [sepDispatch, pSepLoop]
        exact reaches_refl input _
      | succ fuel' ihf =>
        intro cur acc stk
        have h1 : sepDispatch inner sep names ab (fuel' + 1) cur acc stk
            = .eval sep cur names ab (.sepS inner sep names ab fuel' cur acc :: stk) := by
          simp only [sepDispatch]
        rw [h1]
        refine reaches_trans (ih2 cur names ab _) ?_
        cases hsep : parseRec input sep cur names ab with
        | fail es ps =>
          by_cases hz : ps = cur
          · have h2 : pSepLoop (fun i => parseRec input inner i names ab)
                (fun i => parseRec input sep i names ab) (fuel' + 1) cur acc
                = .ok cur (Val.ofList acc) := by
              simp only [pSepLoop]
              rw [hsep]
              simp [hz]
            rw [h2]
            refine reaches_one ?_
            simp only [step, applyFrame]
            rw [if_pos hz]
          · have h2 : pSepLoop (fun i => parseRec input inner i names ab)
                (fun i => parseRec input sep i names ab) (fuel' + 1) cur acc
                = .fail es ps := by
              simp only [pSepLoop]
              rw [hsep]
              simp [hz]
            rw [h2]
            refine reaches_one ?_
            simp only [step, applyFrame]
            rw [if_neg hz]
        | ok j w =>
          refine reaches_trans (reaches_one rfl) ?_
          refine reaches_trans
            (ih1 j names ab (.sepB inner sep names ab fuel' cur j acc :: stk)) ?_
          cases hin : parseRec input inner j names ab with
          | fail e pos =>
            by_cases hz : j = cur ∧ pos = j
            · have h2 : pSepLoop (fun i => parseRec input inner i names ab)
                  (fun i => parseRec input sep i names ab) (fuel' + 1) cur acc
                  = .ok cur (Val.ofList acc) := by
                simp only [pSepLoop]
                rw [hsep]
                simp only [hin]
                simp only [if_pos hz]
              rw [h2]
              refine reaches_one ?_
              simp only [step, applyFrame]
              rw [if_pos hz]
            · have h2 : pSepLoop (fun i => parseRec input inner i names ab)
                  (fun i => parseRec input sep i names ab) (fuel' + 1) cur acc
                  = .fail e pos := by
                simp only [pSepLoop]
                rw [hsep]
                simp only [hin]
                simp only [if_neg hz]
              rw [h2]
              refine reaches_one ?_
              simp only [step, applyFrame]
              rw [if_neg hz]
          | ok kk v =>
            by_cases hlt : cur < kk
            · have h2 : pSepLoop (fun i => parseRec input inner i names ab)
                  (fun i => parseRec input sep i names ab) (fuel' + 1) cur acc
                  = pSepLoop (fun i => parseRec input inner i names ab)
                    (fun i => parseRec input sep i names ab) fuel' kk (acc ++ [v]) := by
                simp only [pSepLoop]
                rw [hsep]
                simp only [hin]
                simp [hlt]
              rw [h2]
              have hstep : step input
                  (.apply (.sepB inner sep names ab fuel' cur j acc :: stk) (.ok kk v))
                  = sepDispatch inner sep names ab fuel' kk (acc ++ [v]) stk := by
                simp only [step, applyFrame]
                rw [if_pos hlt]
              exact reaches_trans (reaches_one hstep) (ihf kk (acc ++ [v]) stk)
            · have h2 : pSepLoop (fun i => parseRec input inner i names ab)
                  (fun i => parseRec input sep i names ab) (fuel' + 1) cur acc
                  = .ok kk (Val.ofList (acc ++ [v])) := by
                simp only [pSepLoop]
                rw [hsep]
                simp only [hin]
                simp [hlt]
              rw [h2]
              refine reaches_one ?_
              simp only [step, applyFrame]
              rw [if_neg hlt]
    show Reaches input (.eval (.RepeatWithSep inner sep al) idx names ab st)
      (.apply st (pSep (fun i => parseRec input inner i names ab)
        (fun i => parseRec input sep i names ab) al ab (input.length + 1 - idx) idx))
    refine reaches_trans (reaches_one rfl) ?_
    refine reaches_trans
      (ih1 idx names ab (.sepFirst inner sep al names ab (input.length + 1 - idx) idx :: st)) ?_
    cases hres : parseRec input inner idx names ab with
    | fail e pos =>
      by_cases hc : al = false ∧ (ab = true ∨ pos = idx)
      · have h2 : pSep (fun i => parseRec input inner i names ab)
            (fun i => parseRec input sep i names ab) al ab (input.length + 1 - idx) idx
            = .ok idx (Val.ofList []) := by
          simp only [pSep]
          rw [hres]
          simp only [if_pos hc]
        rw [h2]
        refine reaches_one ?_
        simp only [step, applyFrame]
        rw [if_pos hc]
      · have h2 : pSep (fun i => parseRec input inner i names ab)
            (fun i => parseRec input sep i names ab) al ab (input.length + 1 - idx) idx
            = .fail e pos := by
          simp only [pSep]
          rw [hres]
          simp only [if_neg hc]
        rw [h2]
        refine reaches_one ?_
        simp only [step, applyFrame]
        rw [if_neg hc]
    | ok i v =>
      by_cases hlt : idx < i
      · have h2 : pSep (fun i => parseRec input inner i names ab)
            (fun i => parseRec input sep i names ab) al ab (input.length + 1 - idx) idx
            = pSepLoop (fun i => parseRec input inner i names ab)
              (fun i => parseRec input sep i names ab) (input.length + 1 - idx) i [v] := by
          simp only [pSep]
          rw [hres]
          simp [hlt]
        rw [h2]
        have hstep : step input
            (.apply (.sepFirst inner sep al names ab (input.length + 1 - idx) idx :: st) (.ok i v))
            = sepDispatch inner sep names ab (input.length + 1 - idx) i [v] st := by
          simp only [step, applyFrame]
          rw [if_pos hlt]
        exact reaches_trans (reaches_one hstep) (aux (input.length + 1 - idx) i [v] st)
      · have h2 : pSep (fun i => parseRec input inner i names ab)
            (fun i => parseRec input sep i names ab) al ab (input.length + 1 - idx) idx
            = .ok i (Val.ofList [v]) := by
          simp only [pSep]
          rw [hres]
          simp [hlt]
        rw [h2]
        refine reaches_one ?_
        simp only [step, applyFrame]
        rw [if_neg hlt]

/-- C1: for every Syntax `S` and input `x`, the stack-safe engine, run with a
sufficient step budget, returns exactly the result of the recursive reference
engine — the same success value, or the same `ParserError` with equal shape,
name chains and failure positions (`PRes` equality covers the full error
structure, and the `parseStringWith` results agree). -/
theorem engine_equivalence (S : Syntax) (x : String) :
    ∃ fuel, machineParse fuel S.parserOf x.data
        = some (parseRec x.data S.parserOf 0 [] true)
      ∧ parseStringStackSafe S x fuel = some (parseString S x) := by
  obtain ⟨n, hn⟩ := machine_sim x.data S.parserOf 0 [] true []
  have hm : machineParse (n + 1) S.parserOf x.data
      = some (parseRec x.data S.parserOf 0 [] true) := by
    unfold machineParse
    rw [stepN_add x.data n 1, hn]
    rfl
  refine ⟨n + 1, hm, ?_⟩
  unfold parseStringStackSafe parseString
  rw [hm]
  cases parseRec x.data S.parserOf 0 [] true <;> rfl


theorem getD_append_cons {α : Type} (pre : List α) (c : α) (post : List α) (d : α) :
    (pre ++ c :: post).getD pre.length d = c := by
  induction pre with
  | nil => rfl
  | cons a t ih => simpa using ih

theorem literal_test (r : Regex) :
    ∀ cs, Regex.toLiteral r = some cs →
      ∀ pre post : List Nat,
        Regex.test (pre ++ cs ++ post) r pre.length = ((pre.length + cs.length : Nat) : Int) := by
  induction r with
  | Succeed => intro cs h; simp [Regex.toLiteral] at h
  | And l r ihl ihr => intro cs h; simp [Regex.toLiteral] at h
  | Or l r ihl ihr => intro cs h; simp [Regex.toLiteral] at h
  | Repeat r mn mx ih => intro cs h; simp [Regex.toLiteral] at h
  | OneOf bs =>
    intro cs h pre post
    match bs, h with
    | [n], h =>
      simp only [Regex.toLiteral, Option.some.injEq] at h
      subst h
      have hlen : pre.length < (pre ++ [n] ++ post).length := by
        simp
      have hget : (pre ++ [n] ++ post).getD pre.length 0 = n := by
        rw [List.append_assoc]
        exact getD_append_cons pre n post 0
      simp only [Regex.test]
      rw [if_pos hlen, hget]
      rw [if_pos (by simp : n ∈ [n])]
      simp
  | Sequence l r ihl ihr =>
    intro cs h pre post
    match hl : Regex.toLiteral l, hr : Regex.toLiteral r with
    | some a, some b =>
      rw [Regex.toLiteral, hl, hr] at h
      simp only [Option.some.injEq] at h
      subst h
      have hL := ihl a hl pre (b ++ post)
      have hR := ihr b hr (pre ++ a) post
      have heq1 : pre ++ (a ++ b) ++ post = pre ++ a ++ (b ++ post) := by
        simp [List.append_assoc]
      have heq2 : pre ++ a ++ (b ++ post) = (pre ++ a) ++ b ++ post := by
        simp [List.append_assoc]
      rw [heq1]
      rw [heq2] at hL ⊢
      simp only [Regex.test]
      rw [hL]
      have : ¬ (((pre.length + a.length : Nat) : Int) < 0) := by omega
      rw [if_neg this]
      have htn : (((pre.length + a.length : Nat) : Int)).toNat = (pre ++ a).length := by
        simp only [List.length_append]
        omega
      rw [htn, hR]
      simp
      omega
    | some a, none =>
      rw [Regex.toLiteral, hl, hr] at h
      exact Option.noConfusion h
    | none, _ =>
      rw [Regex.toLiteral, hl] at h
      exact Option.noConfusion h

/-- C4: for every regex `r` with `toLiteral r = some cs`, the compiled matcher
run on the literal itself consumes it entirely: `test(0, cs) = cs.length` and
`matches(cs) = true`; and for every regex and input, `matches` holds iff
`test(0, s) = s.length`. -/
theorem regex_literal (r : Regex) (cs : List Nat) (h : Regex.toLiteral r = some cs) :
    Regex.test cs r 0 = (cs.length : Int)
  ∧ Regex.matchesAll r cs = true
  ∧ (∀ (r2 : Regex) (s : List Nat),
      Regex.matchesAll r2 s = true ↔ Regex.test s r2 0 = (s.length : Int)) := by
  have hdef : ∀ (r2 : Regex) (s : List Nat),
      Regex.matchesAll r2 s = true ↔ Regex.test s r2 0 = (s.length : Int) := by
    intro r2 s
    simp [Regex.matchesAll]
  have h0 : Regex.test cs r 0 = (cs.length : Int) := by
    have := literal_test r cs h [] []
    simpa using this
  exact ⟨h0, (hdef r cs).mpr h0, hdef⟩



theorem repLoopR_le (tst : Nat → Int) (mn : Nat) (mx : Option Nat) (L : Nat)
    (htst : ∀ c, c ≤ L → tst c ≤ (L : Int)) :
    ∀ fuel count cur, cur ≤ L → repLoopR tst mn mx fuel count cur ≤ (L : Int) := by
  intro fuel
  induction fuel with
  | zero =>
    intro count cur hcur
    simp only [repLoopR]
    split
    · omega
    · split <;> simp [notMatched] <;> omega
  | succ fuel ih =>
    intro count cur hcur
    simp only [repLoopR]
    split
    · omega
    · have hi := htst cur hcur
      by_cases hneg : tst cur < 0
      · rw [if_pos hneg]
        split <;> omega
      · rw [if_neg hneg]
        by_cases hlt : cur < (tst cur).toNat
        · rw [if_pos hlt]
          exact ih (count + 1) (tst cur).toNat (by omega)
        · rw [if_neg hlt]
          split <;> simp [notMatched] <;> omega

theorem test_le (s : List Nat) (r : Regex) :
    ∀ idx, idx ≤ s.length → Regex.test s r idx ≤ (s.length : Int) := by
  induction r with
  | Succeed => intro idx h; simp [Regex.test]; omega
  | OneOf bs =>
    intro idx h
    simp only [Regex.test]
    split
    · split
      · simp
        omega
      · simp [notMatched]
        omega
    · simp [needMoreInput]
      omega
  | And l r ihl ihr =>
    intro idx h
    simp only [Regex.test]
    split
    · simp [needMoreInput]; omega
    · split
      · exact ihl idx h
      · simp [notMatched]; omega
  | Or l r ihl ihr =>
    intro idx h
    simp only [Regex.test]
    exact max_le (ihl idx h) (ihr idx h)
  | Sequence l r ihl ihr =>
    intro idx h
    simp only [Regex.test]
    split
    · exact ihl idx h
    · rename_i hnot
      refine ihr _ ?_
      have := ihl idx h
      omega
  | Repeat r mn mx ih =>
    intro idx h
    simp only [Regex.test]
    exact repLoopR_le _ _ _ _ (fun c hc => ih c hc) _ 0 idx h

/-- C5: the union regex runs both sides and takes the longer match, an
equal-length tie going to the left side; it matches at an index iff either
side matches there, and it matches a whole string iff either side does. -/
theorem regex_or_semantics (l r : Regex) (s : List Nat) (idx : Nat) :
    (Regex.test s (.Or l r) idx
      = if Regex.test s r idx ≤ Regex.test s l idx then Regex.test s l idx
        else Regex.test s r idx)
  ∧ (0 ≤ Regex.test s (.Or l r) idx ↔
      0 ≤ Regex.test s l idx ∨ 0 ≤ Regex.test s r idx)
  ∧ (Regex.matchesAll (.Or l r) s = true ↔
      Regex.matchesAll l s = true ∨ Regex.matchesAll r s = true) := by
  refine ⟨?_, ?_, ?_⟩
  · simp only [Regex.test]
    rcases le_total (Regex.test s l idx) (Regex.test s r idx) with hle | hle
    · rw [max_eq_right hle]
      split <;> omega
    · rw [max_eq_left hle]
      split <;> omega
  · simp only [Regex.test]
    constructor
    · intro h
      rcases le_total (Regex.test s l idx) (Regex.test s r idx) with hle | hle
      · rw [max_eq_right hle] at h; right; exact h
      · rw [max_eq_left hle] at h; left; exact h
    · intro h
      rcases h with h | h
      · exact le_trans h (le_max_left _ _)
      · exact le_trans h (le_max_right _ _)
  · have hl := test_le s l 0 (Nat.zero_le _)
    have hr := test_le s r 0 (Nat.zero_le _)
    simp only [Regex.matchesAll, Regex.test, decide_eq_true_eq]
    constructor
    · intro h
      rcases le_total (Regex.test s l 0) (Regex.test s r 0) with hle | hle
      · rw [max_eq_right hle] at h; right; exact h
      · rw [max_eq_left hle] at h; left; exact h
    · intro h
      rcases h with h | h
      · have : Regex.test s r 0 ≤ Regex.test s l 0 := by omega
        rw [max_eq_left this, h]
      · have : Regex.test s l 0 ≤ Regex.test s r 0 := by omega
        rw [max_eq_right this, h]

theorem mem_digitSet (n : Nat) : n ∈ digitSet ↔ 48 ≤ n ∧ n ≤ 57 := by
  simp only [digitSet, List.mem_map, List.mem_range]
  constructor
  · rintro ⟨i, hi, rfl⟩; omega
  · intro h; exact ⟨n - 48, by omega, by omega⟩

theorem mem_letterSet (n : Nat) :
    n ∈ letterSet ↔ (65 ≤ n ∧ n ≤ 90) ∨ (97 ≤ n ∧ n ≤ 122) := by
  simp only [letterSet, List.mem_append, List.mem_map, List.mem_range]
  constructor
  · rintro (⟨i, hi, rfl⟩ | ⟨i, hi, rfl⟩) <;> omega
  · rintro (h | h)
    · exact Or.inl ⟨n - 65, by omega, by omega⟩
    · exact Or.inr ⟨n - 97, by omega, by omega⟩

theorem oneOf_single (bs : List Nat) (n : Nat) :
    Regex.test [n] (.OneOf bs) 0 = 1 ↔ n ∈ bs := by
  have hg : ([n] : List Nat).getD 0 0 = n := rfl
  simp only [Regex.test, List.length_singleton, Nat.zero_lt_one, if_true, hg]
  split
  · rename_i h
    simp [h]
  · rename_i h
    simp [notMatched, h]

/-- C7: the derived character classes accept exactly the specified code-unit
sets — digits are 0..9, letters are A..Z and a..z, the alphanumeric class is
the union of the two, the single-whitespace class is exactly space, tab, CR,
LF, VT and FF; at the Syntax level, `digit` parses a single character iff it
lies in 0..9. -/
theorem derived_char_classes :
    (∀ n : Nat, Regex.test [n] Regex.anyDigit 0 = 1 ↔ 48 ≤ n ∧ n ≤ 57)
  ∧ (∀ n : Nat, Regex.test [n] Regex.anyLetter 0 = 1 ↔
      (65 ≤ n ∧ n ≤ 90) ∨ (97 ≤ n ∧ n ≤ 122))
  ∧ (∀ n : Nat, Regex.test [n] Regex.anyAlphaNumeric 0 = 1 ↔
      Regex.test [n] Regex.anyLetter 0 = 1 ∨ Regex.test [n] Regex.anyDigit 0 = 1)
  ∧ (∀ n : Nat, Regex.test [n] Regex.anyWhitespace 0 = 1 ↔
      n = 32 ∨ n = 9 ∨ n = 13 ∨ n = 10 ∨ n = 11 ∨ n = 12)
  ∧ (∀ c : Char, parseString digitS (String.mk [c])
      = if 48 ≤ c.toNat ∧ c.toNat ≤ 57 then .ok (.charV c)
        else .fail (.failure [] 0 (.strV "not a digit"))) := by
  refine ⟨?_, ?_, ?_, ?_, ?_⟩
  · intro n
    rw [Regex.anyDigit, oneOf_single]
    exact mem_digitSet n
  · intro n
    rw [Regex.anyLetter, oneOf_single]
    exact mem_letterSet n
  · intro n
    rw [Regex.anyAlphaNumeric, Regex.anyLetter, Regex.anyDigit,
      oneOf_single, oneOf_single, oneOf_single]
    simp [alphaNumericSet]
  · intro n
    rw [Regex.anyWhitespace, oneOf_single]
    simp [whitespaceSet]
  · intro c
    have hmk : (String.mk [c]).data = [c] := rfl
    by_cases hc : 48 ≤ c.toNat ∧ c.toNat ≤ 57
    · have hmem : c.toNat ∈ digitSet := (mem_digitSet c.toNat).mpr hc
      rw [if_pos hc]
      simp [parseString, hmk, parseRec, leafRegex, codeUnits, Regex.anyDigit,
        Regex.test, regVal, hmem]
    · have hmem : c.toNat ∉ digitSet := fun h => hc ((mem_digitSet c.toNat).mp h)
      rw [if_neg hc]
      simp [parseString, hmk, parseRec, leafRegex, codeUnits, Regex.anyDigit,
        Regex.test, regVal, hmem, notMatched, errOrUnknown]

/-- C8: the printer `exactly(v, e)` emits its input `x` iff `x` equals `v`
under structural equality (decidable equality of values, standing for
`Equal.equals`), and otherwise fails with `e`, or with the default string
error when no error is supplied; `except(v, e)` is the exact dual. -/
theorem printer_exactly_except (v e x : Val) :
    (prun (exactly v (some e)) x = if x = v then .ok [x] else .fail e)
  ∧ (prun (exactly v none) x = if x = v then .ok [x] else .fail defaultExactlyErr)
  ∧ (prun (exceptP v (some e)) x = if x = v then .fail e else .ok [x])
  ∧ (prun (exceptP v none) x = if x = v then .fail defaultExceptErr else .ok [x]) := by
  refine ⟨?_, ?_, ?_, ?_⟩ <;> simp [exactly, exceptP, prun]

/-- C9: the backtracking combinators rebuild only the parser half of a
Syntax; printing is unaffected, for `backtrack` and for either value of the
`setAutoBacktracking` flag. -/
theorem backtracking_printer_frame (S : Syntax) (v : Val) (b : Bool) :
    printString (backtrackS S) v = printString S v
  ∧ printString (setAutoBacktrackingS S b) v = printString S v :=
  ⟨rfl, rfl⟩

/-- C10: the printer `repeatWithSeparator(p, sep)` requires a non-empty input
chunk: on a non-empty chunk it prints the head with `p` and every further
element as separator-then-element (the zip-with-repeated-pairs composition),
while the empty chunk crashes (head of an empty chunk) rather than printing
nothing — unlike the printer `repeat`, which accepts the empty chunk and
prints nothing. -/
theorem printer_repeatWithSeparator (p sep : Printer) :
    prun (.RepeatWithSepP p sep) Val.nilV = .crash
  ∧ (∀ x xs, prun (.RepeatWithSepP p sep) (.consV x xs)
      = prun (.ZipP p (.RepeatP (.ZipRightP sep p))) (.pairV x xs))
  ∧ prun (.RepeatP p) Val.nilV = .ok [] := by
  refine ⟨rfl, ?_, rfl⟩
  intro x xs
  simp only [prun]

/-- C3: in `orElse(A, B)` with auto-backtracking on, when `A` fails having
consumed input the engine attempts `B` from the very index at which the
alternative was entered, and the alternative's result is `B`'s result (its
success, or both errors when `B` also fails); with auto-backtracking off a
failure of `A` that consumed input propagates and `B` is not attempted. -/
theorem orElse_backtracking (A B : Parser) (input : List Char) (idx : Nat)
    (names : List String) (e : ParserError) (pos : Nat) :
    (parseRec input A idx names true = .fail e pos → idx < pos →
      parseRec input (.OrElse .plain A B) idx names true
        = (match parseRec input B idx names true with
           | .ok i v => .ok i v
           | .fail e2 pos2 => .fail (.allBranchesFailed e e2) pos2))
  ∧ (parseRec input A idx names false = .fail e pos → idx < pos →
      parseRec input (.OrElse .plain A B) idx names false = .fail e pos) := by
  constructor
  · intro h1 _hlt
    have hdef : parseRec input (.OrElse .plain A B) idx names true
        = orElseSem .plain (parseRec input A idx names true)
          (fun _ => parseRec input B idx names true) idx true := rfl
    rw [hdef, h1]
    simp only [orElseSem, if_pos (Or.inl rfl)]
    cases parseRec input B idx names true <;> simp [orWrapR]
  · intro h1 hlt
    have hdef : parseRec input (.OrElse .plain A B) idx names false
        = orElseSem .plain (parseRec input A idx names false)
          (fun _ => parseRec input B idx names false) idx false := rfl
    rw [hdef, h1]
    simp only [orElseSem]
    rw [if_neg]
    rintro (h | h)
    · exact Bool.false_ne_true h
    · omega

theorem orElse_backtracking_witness :
    parseRec "ac".data
        (.OrElse .plain (.ZipWith .both (.CharIn [97] none) (.CharIn [98] none))
          (.CharIn [97] none)) 0 [] true
      = .ok 1 (.charV 'a')
  ∧ parseRec "ac".data
        (.OrElse .plain (.ZipWith .both (.CharIn [97] none) (.CharIn [98] none))
          (.CharIn [97] none)) 0 [] false
      = .fail (.unknownFailure [] 1) 1 := by
  have h := orElse_backtracking (.ZipWith .both (.CharIn [97] none) (.CharIn [98] none))
    (.CharIn [97] none) "ac".data 0 [] (.unknownFailure [] 1) 1
  constructor
  · rw [h.1 (by decide) (by decide)]
    decide
  · exact h.2 (by decide) (by decide)



theorem pRep_le (f : Nat → PRes) (mn : Nat) (mx : Option Nat) (ab : Bool) (L : Nat)
    (hf : ∀ c i v, c ≤ L → f c = .ok i v → i ≤ L) :
    ∀ fuel cur acc i v, cur ≤ L → pRep f mn mx ab fuel cur acc = .ok i v → i ≤ L := by
  intro fuel
  induction fuel with
  | zero =>
    intro cur acc i v hcur h
    simp only [pRep] at h
    split at h
    · cases h
      omega
    · cases h
  | succ fuel ih =>
    intro cur acc i v hcur h
    simp only [pRep] at h
    split at h
    · cases h
      omega
    · rcases hfc : f cur with ⟨i1, v1⟩ | ⟨e, pos⟩
      · rw [hfc] at h
        simp only at h
        have hi1 : i1 ≤ L := hf cur i1 v1 hcur hfc
        split at h
        · exact ih i1 (acc ++ [v1]) i v hi1 h
        · cases h
          omega
      · rw [hfc] at h
        simp only at h
        split at h
        · cases h
          omega
        · cases h

theorem pRepUntil_le (f g : Nat → PRes) (L : Nat)
    (hf : ∀ c i v, c ≤ L → f c = .ok i v → i ≤ L)
    (hg : ∀ c i v, c ≤ L → g c = .ok i v → i ≤ L) :
    ∀ fuel cur acc i v, cur ≤ L → pRepUntil f g fuel cur acc = .ok i v → i ≤ L := by
  intro fuel
  induction fuel with
  | zero =>
    intro cur acc i v _ h
    simp only [pRepUntil] at h
    cases h
  | succ fuel ih =>
    intro cur acc i v hcur h
    simp only [pRepUntil] at h
    rcases hfc : f cur with ⟨i1, v1⟩ | ⟨e, pos⟩
    · rw [hfc] at h
      simp only at h
      have hi1 : i1 ≤ L := hf cur i1 v1 hcur hfc
      rcases hgc : g i1 with ⟨j, w⟩ | ⟨es, ps⟩
      · rw [hgc] at h
        simp only [PRes.ok.injEq] at h
        obtain ⟨h1, h2⟩ := h
        have := hg i1 j w hi1 hgc
        omega
      · rw [hgc] at h
        simp only at h
        split at h
        · exact ih i1 (acc ++ [v1]) i v hi1 h
        · cases h
    · rw [hfc] at h
      simp only at h
      cases h

theorem pSepLoop_le (f g : Nat → PRes) (L : Nat)
    (hf : ∀ c i v, c ≤ L → f c = .ok i v → i ≤ L)
    (hg : ∀ c i v, c ≤ L → g c = .ok i v → i ≤ L) :
    ∀ fuel cur acc i v, cur ≤ L → pSepLoop f g fuel cur acc = .ok i v → i ≤ L := by
  intro fuel
  induction fuel with
  | zero =>
    intro cur acc i v _ h
    simp only [pSepLoop] at h
    cases h
  | succ fuel ih =>
    intro cur acc i v hcur h
    simp only [pSepLoop] at h
    rcases hgc : g cur with ⟨j, w⟩ | ⟨es, ps⟩
    · rw [hgc] at h
      simp only at h
      have hj : j ≤ L := hg cur j w hcur hgc
      rcases hfc : f j with ⟨k, v2⟩ | ⟨e, pos⟩
      · rw [hfc] at h
        simp only at h
        have hk : k ≤ L := hf j k v2 hj hfc
        split at h
        · exact ih k (acc ++ [v2]) i v hk h
        · cases h
          omega
      · rw [hfc] at h
        simp only at h
        split at h
        · cases h
          omega
        · cases h
    · rw [hgc] at h
      simp only at h
      split at h
      · cases h
        omega
      · cases h

theorem parseRec_le (input : List Char) (p : Parser) :
    ∀ idx names ab i v, idx ≤ input.length →
      parseRec input p idx names ab = .ok i v → i ≤ input.length := by
  induction p with
  | Succeed w =>
    intro idx names ab i v hidx h
    cases h
    omega
  | Fail e =>
    intro idx names ab i v hidx h
    cases h
  | Named inner name ih =>
    intro idx names ab i v hidx h
    exact ih idx (name :: names) ab i v hidx h
  | SuspendLazy inner ih =>
    intro idx names ab i v hidx h
    exact ih idx names ab i v hidx h
  | Backtrack inner ih =>
    intro idx names ab i v hidx h
    have hdef : parseRec input (.Backtrack inner) idx names ab
        = backtrackSem (parseRec input inner idx names ab) idx := rfl
    rw [hdef] at h
    rcases hL : parseRec input inner idx names ab with ⟨i1, v1⟩ | ⟨e, pos⟩
    · rw [hL] at h
      simp only [backtrackSem, PRes.ok.injEq] at h
      obtain ⟨h1, h2⟩ := h
      have := ih idx names ab i1 v1 hidx hL
      omega
    · rw [hL] at h
      simp only [backtrackSem] at h
      cases h
  | SetAutoBacktracking inner enabled ih =>
    intro idx names ab i v hidx h
    exact ih idx names enabled i v hidx h
  | MapError inner f ih =>
    intro idx names ab i v hidx h
    have hdef : parseRec input (.MapError inner f) idx names ab
        = mapErrorSem f (parseRec input inner idx names ab) := rfl
    rw [hdef] at h
    rcases hL : parseRec input inner idx names ab with ⟨i1, v1⟩ | ⟨e, pos⟩
    · rw [hL] at h
      simp only [mapErrorSem, PRes.ok.injEq] at h
      obtain ⟨h1, h2⟩ := h
      have := ih idx names ab i1 v1 hidx hL
      omega
    · rw [hL] at h
      simp only [mapErrorSem] at h
      cases h
  | TransformEither inner f ih =>
    intro idx names ab i v hidx h
    have hdef : parseRec input (.TransformEither inner f) idx names ab
        = transformSem f idx names (parseRec input inner idx names ab) := rfl
    rw [hdef] at h
    rcases hL : parseRec input inner idx names ab with ⟨i1, v1⟩ | ⟨e, pos⟩
    · rw [hL] at h
      simp only [transformSem] at h
      rcases hf : f v1 with ⟨w⟩ | ⟨e⟩
      · rw [hf] at h
        simp only [PRes.ok.injEq] at h
        obtain ⟨h1, h2⟩ := h
        have := ih idx names ab i1 v1 hidx hL
        omega
      · rw [hf] at h
        simp only at h
        cases h
    · rw [hL] at h
      simp only [transformSem] at h
      cases h
  | Filter inner pred e ih =>
    intro idx names ab i v hidx h
    have hdef : parseRec input (.Filter inner pred e) idx names ab
        = filterSem pred e idx names (parseRec input inner idx names ab) := rfl
    rw [hdef] at h
    rcases hL : parseRec input inner idx names ab with ⟨i1, v1⟩ | ⟨e2, pos⟩
    · rw [hL] at h
      simp only [filterSem] at h
      split at h
      · simp only [PRes.ok.injEq] at h
        obtain ⟨h1, h2⟩ := h
        have := ih idx names ab i1 v1 hidx hL
        omega
      · cases h
    · rw [hL] at h
      simp only [filterSem] at h
      cases h
  | ZipWith k l r ihl ihr =>
    intro idx names ab i v hidx h
    have hdef : parseRec input (.ZipWith k l r) idx names ab
        = zipSem k (parseRec input l idx names ab)
          (fun i2 => parseRec input r i2 names ab) := rfl
    rw [hdef] at h
    rcases hL : parseRec input l idx names ab with ⟨i1, v1⟩ | ⟨e, pos⟩
    · rw [hL] at h
      simp only [zipSem] at h
      rcases hR : parseRec input r i1 names ab with ⟨j, v2⟩ | ⟨e, pos⟩
      · rw [hR] at h
        simp only [PRes.ok.injEq] at h
        obtain ⟨h1, h2⟩ := h
        have := ihr i1 names ab j v2 (ihl idx names ab i1 v1 hidx hL) hR
        omega
      · rw [hR] at h
        cases h
    · rw [hL] at h
      simp only [zipSem] at h
      cases h
  | OrElse k l r ihl ihr =>
    intro idx names ab i v hidx h
    have hdef : parseRec input (.OrElse k l r) idx names ab
        = orElseSem k (parseRec input l idx names ab)
          (fun _ => parseRec input r idx names ab) idx ab := rfl
    rw [hdef] at h
    rcases hL : parseRec input l idx names ab with ⟨i1, v1⟩ | ⟨e1, pos⟩
    · rw [hL] at h
      simp only [orElseSem, PRes.ok.injEq] at h
      obtain ⟨h1, h2⟩ := h
      have := ihl idx names ab i1 v1 hidx hL
      omega
    · rw [hL] at h
      simp only [orElseSem] at h
      split at h
      · rcases hR : parseRec input r idx names ab with ⟨i2, v2⟩ | ⟨e2, pos2⟩
        · rw [hR] at h
          simp only [PRes.ok.injEq] at h
          obtain ⟨h1, h2⟩ := h
          have := ihr idx names ab i2 v2 hidx hR
          omega
        · rw [hR] at h
          simp only at h
          cases h
      · cases h
  | Optional inner ih =>
    intro idx names ab i v hidx h
    have hdef : parseRec input (.Optional inner) idx names ab
        = optionalSem (parseRec input inner idx names ab) idx ab := rfl
    rw [hdef] at h
    rcases hL : parseRec input inner idx names ab with ⟨i1, v1⟩ | ⟨e, pos⟩
    · rw [hL] at h
      simp only [optionalSem, PRes.ok.injEq] at h
      obtain ⟨h1, h2⟩ := h
      have := ih idx names ab i1 v1 hidx hL
      omega
    · rw [hL] at h
      simp only [optionalSem] at h
      split at h
      · cases h
        omega
      · cases h
  | Repeat inner mn mx ih =>
    intro idx names ab i v hidx h
    exact pRep_le (fun c => parseRec input inner c names ab) mn mx ab input.length
      (fun c i2 v2 hc h2 => ih c names ab i2 v2 hc h2)
      (input.length + 1 - idx) idx [] i v hidx h
  | RepeatUntil inner stop ih1 ih2 =>
    intro idx names ab i v hidx h
    exact pRepUntil_le (fun c => parseRec input inner c names ab)
      (fun c => parseRec input stop c names ab) input.length
      (fun c i2 v2 hc h2 => ih1 c names ab i2 v2 hc h2)
      (fun c i2 v2 hc h2 => ih2 c names ab i2 v2 hc h2)
      (input.length + 1 - idx) idx [] i v hidx h
  | RepeatWithSep inner sep al ih1 ih2 =>
    intro idx names ab i v hidx h
    have hdef : parseRec input (.RepeatWithSep inner sep al) idx names ab
        = pSep (fun c => parseRec input inner c names ab)
          (fun c => parseRec input sep c names ab) al ab
          (input.length + 1 - idx) idx := rfl
    rw [hdef] at h
    simp only [pSep] at h
    rcases hL : parseRec input inner idx names ab with ⟨i1, v1⟩ | ⟨e, pos⟩
    · rw [hL] at h
      simp only at h
      have hi1 : i1 ≤ input.length := ih1 idx names ab i1 v1 hidx hL
      split at h
      · exact pSepLoop_le (fun c => parseRec input inner c names ab)
          (fun c => parseRec input sep c names ab) input.length
          (fun c i2 v2 hc h2 => ih1 c names ab i2 v2 hc h2)
          (fun c i2 v2 hc h2 => ih2 c names ab i2 v2 hc h2)
          (input.length + 1 - idx) i1 [v1] i v hi1 h
      · cases h
        omega
    · rw [hL] at h
      simp only at h
      split at h
      · cases h
        omega
      · cases h
  | Not inner e ih =>
    intro idx names ab i v hidx h
    have hdef : parseRec input (.Not inner e) idx names ab
        = notSem e idx names (parseRec input inner idx names ab) := rfl
    rw [hdef] at h
    rcases hL : parseRec input inner idx names ab with ⟨i1, v1⟩ | ⟨e2, pos⟩
    · rw [hL] at h
      simp only [notSem] at h
      cases h
    · rw [hL] at h
      simp only [notSem] at h
      cases h
      omega
  | End =>
    intro idx names ab i v hidx h
    have hdef : parseRec input .End idx names ab = leafEnd input idx := rfl
    rw [hdef] at h
    simp only [leafEnd] at h
    split at h
    · cases h
      omega
    · cases h
  | Index =>
    intro idx names ab i v hidx h
    cases h
    omega
  | CaptureString inner ih =>
    intro idx names ab i v hidx h
    have hdef : parseRec input (.CaptureString inner) idx names ab
        = captureSem input idx (parseRec input inner idx names ab) := rfl
    rw [hdef] at h
    rcases hL : parseRec input inner idx names ab with ⟨i1, v1⟩ | ⟨e, pos⟩
    · rw [hL] at h
      simp only [captureSem, PRes.ok.injEq] at h
      obtain ⟨h1, h2⟩ := h
      have := ih idx names ab i1 v1 hidx hL
      omega
    · rw [hL] at h
      simp only [captureSem] at h
      cases h
  | ParseRegex k r oe =>
    intro idx names ab i v hidx h
    have hdef : parseRec input (.ParseRegex k r oe) idx names ab
        = leafRegex k r oe input idx names := rfl
    rw [hdef] at h
    simp only [leafRegex, codeUnits] at h
    split at h
    · rename_i hpos
      simp only [PRes.ok.injEq] at h
      obtain ⟨h1, h2⟩ := h
      have := test_le (List.map Char.toNat input) r idx (by simpa using hidx)
      simp only [List.length_map] at this
      omega
    · split at h
      · cases h
      · cases h
  | CharIn bs oe =>
    intro idx names ab i v hidx h
    have hdef : parseRec input (.CharIn bs oe) idx names ab
        = leafCharIn bs oe input idx names := rfl
    rw [hdef] at h
    simp only [leafCharIn] at h
    split at h
    · rename_i hlen
      split at h
      · cases h
        omega
      · cases h
    · cases h
  | CharNotIn bs oe =>
    intro idx names ab i v hidx h
    have hdef : parseRec input (.CharNotIn bs oe) idx names ab
        = leafCharNotIn bs oe input idx names := rfl
    rw [hdef] at h
    simp only [leafCharNotIn] at h
    split at h
    · rename_i hlen
      split at h
      · cases h
      · cases h
        omega
    · cases h
  | AnyChar =>
    intro idx names ab i v hidx h
    have hdef : parseRec input .AnyChar idx names ab = leafAnyChar input idx := rfl
    rw [hdef] at h
    simp only [leafAnyChar] at h
    split at h
    · rename_i hlen
      cases h
      omega
    · cases h



/-- C6 (amended): the `end` combinator succeeds with unit iff the current
index equals the input length and otherwise fails with `NotConsumedAll`
carrying the current index; and `zipLeft(P, end)` fails with a
`NotConsumedAll` error iff `P` succeeds consuming a strict prefix of the
input, or `P` itself fails with a `NotConsumedAll` error — the second
disjunct is what the unrestricted "iff" of the claim misses. -/
theorem end_not_consumed_all (P : Parser) (x : List Char) (idx : Nat)
    (names : List String) (ab : Bool) :
    (parseRec x .End idx names ab
      = if idx = x.length then .ok idx .unitV else .fail (.notConsumedAll idx) idx)
  ∧ ((∃ e pos, parseRec x (.ZipWith .left P .End) 0 [] true = .fail e pos ∧ isNCA e = true)
      ↔ ((∃ i v, parseRec x P 0 [] true = .ok i v ∧ i < x.length)
         ∨ (∃ e pos, parseRec x P 0 [] true = .fail e pos ∧ isNCA e = true))) := by
  constructor
  · rfl
  · have hdef : parseRec x (.ZipWith .left P .End) 0 [] true
        = zipSem .left (parseRec x P 0 [] true)
          (fun i => parseRec x .End i [] true) := rfl
    rw [hdef]
    rcases hP : parseRec x P 0 [] true with ⟨i, v⟩ | ⟨e, pos⟩
    · have hz : zipSem .left (PRes.ok i v) (fun i2 => parseRec x .End i2 [] true)
          = if i = x.length then .ok i v else .fail (.notConsumedAll i) i := by
        simp only [zipSem]
        have hend : parseRec x .End i [] true = leafEnd x i := rfl
        rw [hend]
        simp only [leafEnd]
        by_cases hi : i = x.length
        · rw [if_pos hi, if_pos hi]
          rfl
        · rw [if_neg hi, if_neg hi]
      rw [hz]
      by_cases hi : i = x.length
      · rw [if_pos hi]
        constructor
        · rintro ⟨e2, pos2, hcontra, _⟩
          cases hcontra
        · rintro (⟨i2, v2, hok, hlt⟩ | ⟨e2, pos2, hcontra, _⟩)
          · exfalso
            simp only [PRes.ok.injEq] at hok
            obtain ⟨h1, h2⟩ := hok
            omega
          · cases hcontra
      · rw [if_neg hi]
        constructor
        · intro _
          left
          refine ⟨i, v, rfl, ?_⟩
          have := parseRec_le x P 0 [] true i v (Nat.zero_le _) hP
          omega
        · intro _
          exact ⟨.notConsumedAll i, i, rfl, rfl⟩
    · constructor
      · rintro ⟨e2, pos2, heq, hn⟩
        exact Or.inr ⟨e2, pos2, heq, hn⟩
      · rintro (⟨i2, v2, hok, _⟩ | ⟨e2, pos2, heq, hn⟩)
        · cases hok
        · exact ⟨e2, pos2, heq, hn⟩

/-- C6 counterexample: take P = zipLeft(anyChar, end) and the input "ab".
Then zipLeft(P, end) fails with NotConsumedAll(1), yet P does not succeed on
"ab" at all (it fails itself with NotConsumedAll), so "fails with
NotConsumedAll iff P parses a strict prefix" is false as stated. -/
theorem end_not_consumed_all_counterexample :
    ¬ ((∃ e pos, parseRec "ab".data
          (.ZipWith .left (.ZipWith .left .AnyChar .End) .End) 0 [] true
            = .fail e pos ∧ isNCA e = true)
        ↔ (∃ i v, parseRec "ab".data (.ZipWith .left .AnyChar .End) 0 [] true
            = .ok i v ∧ i < "ab".data.length)) := by
  intro hiff
  obtain ⟨i, v, hok, _⟩ := hiff.mp ⟨.notConsumedAll 1, 1, by decide, rfl⟩
  rw [show parseRec "ab".data (.ZipWith .left .AnyChar .End) 0 [] true
      = .fail (.notConsumedAll 1) 1 from by decide] at hok
  cases hok



theorem append_ok (r1 r2 : PrintRes) (out : List Val) (h : r1.append r2 = .ok out) :
    ∃ o1 o2, r1 = .ok o1 ∧ r2 = .ok o2 ∧ out = o1 ++ o2 := by
  cases r1 with
  | ok o1 =>
    cases r2 with
    | ok o2 =>
      simp only [PrintRes.append, PrintRes.ok.injEq] at h
      exact ⟨o1, o2, rfl, rfl, h.symm⟩
    | fail e => cases h
    | crash => cases h
  | fail e => cases h
  | crash => cases h

theorem valChars_map (cs : List Char) : valChars (cs.map Val.charV) = cs := by
  induction cs with
  | nil => rfl
  | cons c t ih => simpa [valChars] using ih

theorem charInS_parse (bs : List Nat) (c : Char) (pre post : List Char)
    (names : List String) (ab : Bool) (hmem : c.toNat ∈ bs) :
    parseRec (pre ++ c :: post) (charInS bs).parserOf pre.length names ab
      = .ok (pre.length + 1) (.charV c) := by
  have hdef : parseRec (pre ++ c :: post) (charInS bs).parserOf pre.length names ab
      = leafCharIn bs (some (.strV "not one of the expected characters"))
        (pre ++ c :: post) pre.length names := rfl
  rw [hdef]
  have hlen : pre.length < (pre ++ c :: post).length := by simp
  have hget : (pre ++ c :: post).getD pre.length ' ' = c := getD_append_cons pre c post ' '
  simp only [leafCharIn, if_pos hlen, hget, if_pos hmem]

theorem charS_parse (c : Char) (pre post : List Char)
    (names : List String) (ab : Bool) :
    parseRec (pre ++ c :: post) (charS c).parserOf pre.length names ab
      = .ok (pre.length + 1) .unitV := by
  have hdef : parseRec (pre ++ c :: post) (charS c).parserOf pre.length names ab
      = leafRegex .discard (Regex.charR c) (some (.strV "not the expected character"))
        (pre ++ c :: post) pre.length names := rfl
  rw [hdef]
  have htest : Regex.test (codeUnits (pre ++ c :: post)) (Regex.charR c) pre.length
      = ((pre.length + 1 : Nat) : Int) := by
    have hcu : codeUnits (pre ++ c :: post)
        = codeUnits pre ++ c.toNat :: codeUnits post := by
      simp [codeUnits]
    rw [hcu]
    have hlen2 : pre.length < (codeUnits pre ++ c.toNat :: codeUnits post).length := by
      simp [codeUnits]
    have hget2 : (codeUnits pre ++ c.toNat :: codeUnits post).getD pre.length 0 = c.toNat := by
      have h := getD_append_cons (codeUnits pre) c.toNat (codeUnits post) 0
      have hl : (codeUnits pre).length = pre.length := by simp [codeUnits]
      rw [hl] at h
      exact h
    simp only [Regex.charR, Regex.test, if_pos hlen2, hget2]
    simp
  simp only [leafRegex, htest]
  have h0 : (0 : Int) ≤ ((pre.length + 1 : Nat) : Int) := by omega
  rw [if_pos h0]
  have htn : (((pre.length + 1 : Nat) : Int)).toNat = pre.length + 1 := by omega
  rw [htn]
  rfl

theorem parse_hasTy (b : SynB) (hg : Good b) :
    ∀ (x : List Char) idx names ab i v,
      parseRec x (b.toSyntax).parserOf idx names ab = .ok i v → HasTy v b.ty := by
  induction b with
  | charInB bs =>
    intro x idx names ab i v h
    have hdef : parseRec x ((SynB.charInB bs).toSyntax).parserOf idx names ab
        = leafCharIn bs (some (.strV "not one of the expected characters")) x idx names := rfl
    rw [hdef] at h
    simp only [leafCharIn] at h
    split at h
    · split at h
      · simp only [PRes.ok.injEq] at h
        obtain ⟨h1, h2⟩ := h
        exact ⟨_, h2.symm⟩
      · cases h
    · cases h
  | charB c =>
    intro x idx names ab i v h
    have hdef : parseRec x ((SynB.charB c).toSyntax).parserOf idx names ab
        = leafRegex .discard (Regex.charR c) (some (.strV "not the expected character"))
          x idx names := rfl
    rw [hdef] at h
    simp only [leafRegex] at h
    split at h
    · simp only [PRes.ok.injEq] at h
      obtain ⟨h1, h2⟩ := h
      exact h2.symm
    · split at h
      · cases h
      · cases h
  | zipB l r ihl ihr =>
    cases hg with
    | zipB hgl hgr =>
      intro x idx names ab i v h
      have hdef : parseRec x ((SynB.zipB l r).toSyntax).parserOf idx names ab
          = zipSem .both (parseRec x l.toSyntax.parserOf idx names ab)
            (fun i2 => parseRec x r.toSyntax.parserOf i2 names ab) := rfl
      rw [hdef] at h
      rcases hL : parseRec x l.toSyntax.parserOf idx names ab with ⟨i1, v1⟩ | ⟨e, pos⟩
      · rw [hL] at h
        simp only [zipSem] at h
        rcases hR : parseRec x r.toSyntax.parserOf i1 names ab with ⟨j, v2⟩ | ⟨e, pos⟩
        · rw [hR] at h
          simp only [PRes.ok.injEq] at h
          obtain ⟨h1, h2⟩ := h
          exact ⟨v1, v2, h2.symm, ihl hgl x idx names ab i1 v1 hL,
            ihr hgr x i1 names ab j v2 hR⟩
        · rw [hR] at h
          cases h
      · rw [hL] at h
        simp only [zipSem] at h
        cases h
  | zipLeftB l c ihl =>
    cases hg with
    | zipLeftB c hgl =>
      intro x idx names ab i v h
      have hdef : parseRec x ((SynB.zipLeftB l c).toSyntax).parserOf idx names ab
          = zipSem .left (parseRec x l.toSyntax.parserOf idx names ab)
            (fun i2 => parseRec x (charS c).parserOf i2 names ab) := rfl
      rw [hdef] at h
      rcases hL : parseRec x l.toSyntax.parserOf idx names ab with ⟨i1, v1⟩ | ⟨e, pos⟩
      · rw [hL] at h
        simp only [zipSem] at h
        rcases hR : parseRec x (charS c).parserOf i1 names ab with ⟨j, v2⟩ | ⟨e, pos⟩
        · rw [hR] at h
          simp only [PRes.ok.injEq] at h
          obtain ⟨h1, h2⟩ := h
          have := ihl hgl x idx names ab i1 v1 hL
          rw [← h2]
          exact this
        · rw [hR] at h
          cases h
      · rw [hL] at h
        simp only [zipSem] at h
        cases h
  | transformB l toF fr τ ihl =>
    cases hg with
    | transformB hgl hto hfr hiso =>
      intro x idx names ab i v h
      have hdef : parseRec x ((SynB.transformB l toF fr τ).toSyntax).parserOf idx names ab
          = transformSem (fun w => .okT (toF w)) idx names
            (parseRec x l.toSyntax.parserOf idx names ab) := rfl
      rw [hdef] at h
      rcases hL : parseRec x l.toSyntax.parserOf idx names ab with ⟨i1, v1⟩ | ⟨e, pos⟩
      · rw [hL] at h
        simp only [transformSem, PRes.ok.injEq] at h
        obtain ⟨h1, h2⟩ := h
        rw [← h2]
        exact hto v1 (ihl hgl x idx names ab i1 v1 hL)
      · rw [hL] at h
        simp only [transformSem] at h
        cases h



theorem print_parse (b : SynB) (hg : Good b) :
    ∀ v out, HasTy v b.ty → prun (b.toSyntax).printerOf v = .ok out →
      ∃ cs : List Char, out = cs.map Val.charV ∧
        ∀ pre post names ab,
          parseRec (pre ++ cs ++ post) (b.toSyntax).parserOf pre.length names ab
            = .ok (pre.length + cs.length) v := by
  induction b with
  | charInB bs =>
    intro v out hty h
    obtain ⟨c, rfl⟩ := hty
    have hdef : prun ((SynB.charInB bs).toSyntax).printerOf (.charV c)
        = (if Regex.test [c.toNat] (.OneOf bs) 0 = 1 then .ok [.charV c]
           else .fail (.strV "not one of the expected characters")) := rfl
    rw [hdef] at h
    split at h
    · rename_i htest
      have hmem : c.toNat ∈ bs := (oneOf_single bs c.toNat).mp htest
      simp only [PrintRes.ok.injEq] at h
      refine ⟨[c], by simp [h.symm], ?_⟩
      intro pre post names ab
      have := charInS_parse bs c pre post names ab hmem
      simpa using this
    · cases h
  | charB c =>
    intro v out hty h
    have hv : v = .unitV := hty
    subst hv
    have hdef : prun ((SynB.charB c).toSyntax).printerOf .unitV
        = .ok ([c].map Val.charV) := rfl
    rw [hdef] at h
    simp only [PrintRes.ok.injEq] at h
    refine ⟨[c], by simp [h.symm], ?_⟩
    intro pre post names ab
    have := charS_parse c pre post names ab
    simpa using this
  | zipB l r ihl ihr =>
    cases hg with
    | zipB hgl hgr =>
      intro v out hty h
      obtain ⟨a, b2, rfl, hta, htb⟩ := hty
      have hdef : prun ((SynB.zipB l r).toSyntax).printerOf (.pairV a b2)
          = (prun l.toSyntax.printerOf a).append (prun r.toSyntax.printerOf b2) := rfl
      rw [hdef] at h
      obtain ⟨o1, o2, h1, h2, rfl⟩ := append_ok _ _ _ h
      obtain ⟨cs1, rfl, hp1⟩ := ihl hgl a o1 hta h1
      obtain ⟨cs2, rfl, hp2⟩ := ihr hgr b2 o2 htb h2
      refine ⟨cs1 ++ cs2, by simp, ?_⟩
      intro pre post names ab
      have hdef2 : parseRec (pre ++ (cs1 ++ cs2) ++ post)
          ((SynB.zipB l r).toSyntax).parserOf pre.length names ab
          = zipSem .both
            (parseRec (pre ++ (cs1 ++ cs2) ++ post) l.toSyntax.parserOf pre.length names ab)
            (fun i2 => parseRec (pre ++ (cs1 ++ cs2) ++ post) r.toSyntax.parserOf i2 names ab)
          := rfl
      rw [hdef2]
      have heq : pre ++ (cs1 ++ cs2) ++ post = pre ++ cs1 ++ (cs2 ++ post) := by
        simp [List.append_assoc]
      rw [heq]
      rw [hp1 pre (cs2 ++ post) names ab]
      simp only [zipSem]
      have h3 := hp2 (pre ++ cs1) post names ab
      have heq2 : pre ++ cs1 ++ cs2 ++ post = pre ++ cs1 ++ (cs2 ++ post) := by
        simp [List.append_assoc]
      rw [heq2] at h3
      have heq3 : (pre ++ cs1).length = pre.length + cs1.length := by simp
      rw [heq3] at h3
      rw [h3]
      have heq4 : pre.length + cs1.length + cs2.length = pre.length + (cs1 ++ cs2).length := by
        simp
        omega
      rw [heq4]
      rfl
  | zipLeftB l c ihl =>
    cases hg with
    | zipLeftB c hgl =>
      intro v out hty h
      have hdef : prun ((SynB.zipLeftB l c).toSyntax).printerOf v
          = (prun l.toSyntax.printerOf v).append
            (prun (charS c).printerOf .unitV) := rfl
      rw [hdef] at h
      obtain ⟨o1, o2, h1, h2, rfl⟩ := append_ok _ _ _ h
      obtain ⟨cs1, rfl, hp1⟩ := ihl hgl v o1 hty h1
      have ho2 : o2 = [c].map Val.charV := by
        have : prun (charS c).printerOf .unitV = .ok ([c].map Val.charV) := rfl
        rw [this] at h2
        simp only [PrintRes.ok.injEq] at h2
        exact h2.symm
      subst ho2
      refine ⟨cs1 ++ [c], by simp, ?_⟩
      intro pre post names ab
      have hdef2 : parseRec (pre ++ (cs1 ++ [c]) ++ post)
          ((SynB.zipLeftB l c).toSyntax).parserOf pre.length names ab
          = zipSem .left
            (parseRec (pre ++ (cs1 ++ [c]) ++ post) l.toSyntax.parserOf pre.length names ab)
            (fun i2 => parseRec (pre ++ (cs1 ++ [c]) ++ post) (charS c).parserOf i2 names ab)
          := rfl
      rw [hdef2]
      have heq : pre ++ (cs1 ++ [c]) ++ post = pre ++ cs1 ++ (c :: post) := by
        simp [List.append_assoc]
      rw [heq]
      have hl1 := hp1 pre (c :: post) names ab
      rw [hl1]
      simp only [zipSem]
      have h3 := charS_parse c (pre ++ cs1) post names ab
      have heq2 : pre ++ cs1 ++ c :: post = pre ++ cs1 ++ (c :: post) := by
        simp [List.append_assoc]
      rw [heq2] at h3
      have heq3 : (pre ++ cs1).length = pre.length + cs1.length := by simp
      rw [heq3] at h3
      rw [h3]
      have heq4 : pre.length + cs1.length + 1 = pre.length + (cs1 ++ [c]).length := by
        simp
        omega
      rw [heq4]
      rfl
  | transformB l toF fr τ ihl =>
    cases hg with
    | transformB hgl hto hfr hiso =>
      intro v out hty h
      have hdef : prun ((SynB.transformB l toF fr τ).toSyntax).printerOf v
          = prun l.toSyntax.printerOf (fr v) := rfl
      rw [hdef] at h
      obtain ⟨cs, rfl, hp⟩ := ihl hgl (fr v) out (hfr v hty) h
      refine ⟨cs, rfl, ?_⟩
      intro pre post names ab
      have hdef2 : parseRec (pre ++ cs ++ post)
          ((SynB.transformB l toF fr τ).toSyntax).parserOf pre.length names ab
          = transformSem (fun w => .okT (toF w)) pre.length names
            (parseRec (pre ++ cs ++ post) l.toSyntax.parserOf pre.length names ab) := rfl
      rw [hdef2, hp pre post names ab]
      simp only [transformSem]
      rw [hiso v hty]



/-- C2 counterexample: the Syntax `transform(anyChar, id, const b)` violates
the unrestricted round-trip law — "a" parses to the value a, the value a
prints to "b" (the printer maps every value through the constant function),
and "b" reparses to b, not a. -/
theorem roundtrip_counterexample :
    parseString roundtripCex "a" = .ok (.charV 'a')
  ∧ printString roundtripCex (.charV 'a') = .ok "b"
  ∧ parseString roundtripCex "b" ≠ .ok (.charV 'a') := by
  refine ⟨by decide, by decide, by decide⟩

/-- C2 (amended): the round-trip law holds on the invertible fragment — for
every Syntax built from character classes, fixed characters, zips, zipLefts
with a fixed character, and transforms whose two functions are type-correct
and mutually inverse: if parsing `x` yields `v` and printing `v` yields `y`,
then parsing `y` yields `v` again (the printed form need not equal `x`). -/
theorem roundtrip_amended (b : SynB) (x y : String) (v : Val)
    (hg : Good b)
    (hp : parseString b.toSyntax x = .ok v)
    (hq : printString b.toSyntax v = .ok y) :
    parseString b.toSyntax y = .ok v := by
  have hty : HasTy v b.ty := by
    unfold parseString at hp
    rcases hP : parseRec x.data b.toSyntax.parserOf 0 [] true with ⟨i, w⟩ | ⟨e, pos⟩
    · rw [hP] at hp
      simp only [ParseOut.ok.injEq] at hp
      rw [← hp]
      exact parse_hasTy b hg x.data 0 [] true i w hP
    · rw [hP] at hp
      cases hp
  unfold printString at hq
  cases hQ : prun b.toSyntax.printerOf v with
  | fail e =>
    rw [hQ] at hq
    cases hq
  | crash =>
    rw [hQ] at hq
    cases hq
  | ok out =>
    rw [hQ] at hq
    simp only [StrRes.ok.injEq] at hq
    obtain ⟨cs, rfl, hparse⟩ := print_parse b hg v out hty hQ
    have hy : y.data = cs := by
      rw [← hq]
      have hv : valChars (List.map Val.charV cs) = cs := valChars_map cs
      rw [hv]
    unfold parseString
    have hr := hparse [] [] [] true
    simp only [List.nil_append, List.append_nil, List.length_nil, Nat.zero_add] at hr
    rw [hy, hr]

theorem roundtrip_amended_witness :
    parseString (SynB.zipB (.charInB [97]) (.charInB [99])).toSyntax "ac"
      = .ok (.pairV (.charV 'a') (.charV 'c')) :=
  roundtrip_amended (SynB.zipB (.charInB [97]) (.charInB [99])) "ac" "ac"
    (.pairV (.charV 'a') (.charV 'c'))
    (Good.zipB (Good.charInB [97]) (Good.charInB [99]))
    (by decide) (by decide)



theorem regex_literal_witness :
    Regex.test [97, 98] (.Sequence (.OneOf [97]) (.OneOf [98])) 0 = (2 : Int)
  ∧ Regex.matchesAll (.Sequence (.OneOf [97]) (.OneOf [98])) [97, 98] = true := by
  have h := regex_literal (.Sequence (.OneOf [97]) (.OneOf [98])) [97, 98] (by decide)
  exact ⟨h.1, h.2.1⟩


end EffectParser